import Mathlib

/-!
Shallow embedding of the report-formatting pipeline of `src/server.py`
(sanitizer, section splitter, paginated PDF layout engine).
Strings are modelled as `List Char`; machine text operations
(`str.replace`, `str.split`, `str.rstrip`, `str.strip`, `re.finditer`
over the literal-alternation pattern, `textwrap.wrap`) are translated to
executable Lean functions on `List Char`.
-/

namespace RealtyAI

/-- Whitespace characters recognized by Python's default `str.strip` /
`str.rstrip` (ASCII whitespace; the only whitespace the pipeline meets). -/
def isWs (c : Char) : Bool :=
  c == ' ' || c == '\t' || c == '\n' || c == '\r' || c == '\x0b' || c == '\x0c'

/-- Python `text.replace(pat, "")`: delete every non-overlapping occurrence
of `pat`, scanning left to right (`src/server.py` line 75). -/
def listReplace (pat : List Char) : List Char → List Char
  | [] => []
  | c :: rest =>
    if pat.isPrefixOf (c :: rest) && !pat.isEmpty then
      listReplace pat (rest.drop (pat.length - 1))
    else
      c :: listReplace pat rest
termination_by l => l.length
decreasing_by
  · simp only [List.length_drop, List.length_cons]
    omega
  · simp only [List.length_cons]
    omega

/-- The markdown markers stripped by the sanitizer, in source order
(`src/server.py` line 74).  The backtick is written via its code point. -/
def mdTokens : List (List Char) :=
  [['*', '*'], ['*'], ['#'], [Char.ofNat 96], ['_']]

/-- The `for md in [...]: text = text.replace(md, "")` loop
(`src/server.py` lines 74-75). -/
def removeMd (l : List Char) : List Char :=
  mdTokens.foldl (fun t md => listReplace md t) l

/-- The `keep` predicate of the sanitizer (`src/server.py` lines 78-82):
a character survives iff its code point lies in neither emoji range. -/
def keep (c : Char) : Bool :=
  (decide (c.toNat < 0x1F000) || decide (0x1FAFF < c.toNat)) &&
  (decide (c.toNat < 0x2600) || decide (0x27BF < c.toNat))

/-- Python `text.split("\n")` (always returns at least one piece). -/
def splitOnNl : List Char → List (List Char)
  | [] => [[]]
  | c :: rest =>
    if c == '\n' then [] :: splitOnNl rest
    else
      match splitOnNl rest with
      | [] => [[c]]
      | l :: ls => (c :: l) :: ls

/-- Python `"\n".join(lines)`. -/
def joinNl : List (List Char) → List Char
  | [] => []
  | [l] => l
  | l :: l' :: ls => l ++ '\n' :: joinNl (l' :: ls)

/-- Python `s.lstrip()`. -/
def lstrip (l : List Char) : List Char := l.dropWhile isWs

/-- Python `s.rstrip()` (`src/server.py` line 87). -/
def rstrip (l : List Char) : List Char := (l.reverse.dropWhile isWs).reverse

/-- Python `s.strip()` (`src/server.py` lines 99 and 183). -/
def strip (l : List Char) : List Char := rstrip (lstrip l)

/-- The stateful blank-line collapse pass of the sanitizer
(`src/server.py` lines 88-97): the `skip` flag records whether the
previous kept line was blank; a blank line is kept (as the empty line)
only when `skip` is false. -/
def collapseBlank : Bool → List (List Char) → List (List Char)
  | _, [] => []
  | skip, l :: rest =>
    if l.all isWs then
      (if skip then [] else [[]]) ++ collapseBlank true rest
    else
      l :: collapseBlank false rest

/-- No two adjacent lines of the list are both blank. -/
def noAdjBlank : List (List Char) → Bool
  | [] => true
  | [_] => true
  | a :: b :: r => (!(a.all isWs && b.all isWs)) && noAdjBlank (b :: r)

/-- `sanitize_text` (`src/server.py` lines 67-99): strip markdown markers,
drop emoji-range code points, rstrip every line, collapse blank-line runs,
rejoin and strip the whole result. -/
def sanitize_text (raw : List Char) : List Char :=
  if raw = [] then []
  else
    let text := (removeMd raw).filter keep
    let lines := (splitOnNl text).map rstrip
    let clean := collapseBlank false lines
    strip (joinNl clean)

/-- The eight canonical section titles, in source order
(`src/server.py` lines 161-170). -/
def titles : List (List Char) :=
  ["Rental Yield".toList, "Monthly Cashflow".toList, "Annual Cashflow".toList,
   "ROI (5-year & 10-year)".toList, "Cap Rate".toList, "Risk Score".toList,
   "Market Summary".toList, "Final Recommendation".toList]

/-- One attempt of the regex `（T1|...|T8):` at the current position:
the Python regex engine tries the alternatives in list order and each
alternative is the literal title followed by a colon. -/
def matchAt (l : List Char) : Option (List Char) :=
  titles.find? (fun t => (t ++ [':']).isPrefixOf l)

/-- Fuel-based worker for `findMatches`; the fuel only forces structural
termination and is always at least the length of the scanned list. -/
def findMatchesAux : Nat → Nat → List Char → List (Nat × List Char)
  | 0, _, _ => []
  | _, _, [] => []
  | fuel + 1, pos, c :: rest =>
    match matchAt (c :: rest) with
    | some t => (pos, t) :: findMatchesAux fuel (pos + t.length + 1) (rest.drop t.length)
    | none => findMatchesAux fuel (pos + 1) rest

/-- `re.finditer(pattern, text)` (`src/server.py` line 173): scan left to
right; on a match record `(start position, matched title)` and resume after
the colon; otherwise advance one character. -/
def findMatches (pos : Nat) (l : List Char) : List (Nat × List Char) :=
  findMatchesAux l.length pos l

/-- The section-assembly loop of `split_sections_for_pdf`
(`src/server.py` lines 178-184): the body of each match runs from the end
of its anchor to the start of the next anchor (or the end of text) and is
stripped. -/
def sectionsOf (text : List Char) : List (Nat × List Char) → List (List Char × List Char)
  | [] => []
  | [(p, t)] => [(t, strip (text.drop (p + t.length + 1)))]
  | (p, t) :: (q, u) :: rest =>
    (t, strip ((text.drop (p + t.length + 1)).take (q - (p + t.length + 1)))) ::
      sectionsOf text ((q, u) :: rest)

/-- `split_sections_for_pdf` (`src/server.py` lines 160-186). -/
def split_sections_for_pdf (text : List Char) : List (List Char × List Char) :=
  let ms := findMatches 0 text
  if ms.isEmpty then [("Report".toList, text)] else sectionsOf text ms

/-- Helper of `splitWords`: accumulate the current word (reversed). -/
def splitWordsAux : List Char → List Char → List (List Char)
  | acc, [] => if acc.isEmpty then [] else [acc.reverse]
  | acc, c :: rest =>
    if isWs c then
      (if acc.isEmpty then [] else [acc.reverse]) ++ splitWordsAux [] rest
    else
      splitWordsAux (c :: acc) rest

/-- Split a line into its maximal whitespace-free words (the chunking
phase of `textwrap.wrap` with default whitespace collapsing). -/
def splitWords (l : List Char) : List (List Char) := splitWordsAux [] l

/-- Fuel-based worker for `breakChunks`; the fuel only forces structural
termination and is always at least the length of the word. -/
def breakChunksAux : Nat → List Char → List (List Char)
  | 0, w => [w]
  | fuel + 1, w =>
    if w.length ≤ 90 then [w] else w.take 90 :: breakChunksAux fuel (w.drop 90)

/-- Break an over-long word into pieces of at most 90 characters
(`textwrap.wrap`'s long-word breaking, `break_long_words=True`). -/
def breakChunks (w : List Char) : List (List Char) :=
  breakChunksAux w.length w

/-- Greedy packing of words into lines of at most 90 characters, words on
one line separated by single spaces (`textwrap.wrap`'s greedy fill). -/
def packWords : List Char → List (List Char) → List (List Char)
  | cur, [] => if cur.isEmpty then [] else [cur]
  | cur, w :: ws =>
    if cur.isEmpty then packWords w ws
    else if cur.length + 1 + w.length ≤ 90 then packWords (cur ++ ' ' :: w) ws
    else cur :: packWords w ws

/-- Models Python `textwrap.wrap(ln, 90)` (`src/server.py` line 246):
split into words, break over-long words, greedily pack into lines of at
most 90 characters.  A blank or empty line yields `[]`. -/
def wrap (ln : List Char) : List (List Char) :=
  packWords [] ((splitWords ln).flatMap breakChunks)

/-- The body-wrapping loop of `generate_pdf` (`src/server.py` lines
244-246): `wrapped.extend(wrap(ln, 90) or [""])` for each source line. -/
def wrapBody (body : List Char) : List (List Char) :=
  (splitOnNl body).flatMap (fun ln => if (wrap ln).isEmpty then [[]] else wrap ln)

/-- One drawing command issued to the reportlab canvas.  Coordinates are
exact integers (page size `letter` is 612 x 792 points and every offset in
the source is a whole number). -/
inductive Op where
  | drawImage : Int → Int → Int → Int → Op
  | setFont : String → Nat → Op
  | setFillColor : String → Op
  | drawString : Int → Int → List Char → Op
  | drawCentredString : Int → Int → List Char → Op
deriving DecidableEq

/-- The mutable rendering state of `generate_pdf`: committed pages (in
order), the drawing commands of the current page, and the `y` cursor. -/
structure RState where
  pages : List (List Op)
  cur : List Op
  y : Int
deriving DecidableEq

/-- Typography constant `line_height` (`src/server.py` line 228). -/
def line_height : Int := 15

/-- Typography constant `bottom_margin` (`src/server.py` line 229). -/
def bottom_margin : Int := 70

/-- `page_footer()` (`src/server.py` lines 231-233). -/
def page_footer : List Op :=
  [Op.setFont "Helvetica-Oblique" 9,
   Op.drawCentredString 306 35 ("RealtyAI • tryrealtyai.com".toList)]

/-- `new_page()` (`src/server.py` lines 235-240): footer the current page,
commit it (`showPage`), reset the font and the cursor on a fresh page. -/
def new_page (st : RState) : RState :=
  { pages := st.pages ++ [st.cur ++ page_footer],
    cur := [Op.setFont "Helvetica" 11],
    y := 760 }

/-- The cover page (`src/server.py` lines 207-219): optional centered logo
image, centered title, centered subtitle. -/
def coverOps (logo : Bool) : List Op :=
  (if logo then [Op.drawImage 256 592 100 100] else []) ++
  [Op.setFont "Helvetica-Bold" 28,
   Op.drawCentredString 306 532 ("RealtyAI Investment Report".toList),
   Op.setFont "Helvetica" 14,
   Op.drawCentredString 306 502 ("AI-powered real estate analysis".toList)]

/-- `needed = (len(wrapped) + 3) * line_height` (`src/server.py` line 249). -/
def neededFor (wrapped : List (List Char)) : Int :=
  (wrapped.length + 3) * line_height

/-- The section-level space reservation (`src/server.py` lines 252-253):
start a new page before the title if the whole section would not fit. -/
def coarseAdjust (st : RState) (wrapped : List (List Char)) : RState :=
  if st.y - neededFor wrapped < bottom_margin then new_page st else st

/-- Drawing the section title (`src/server.py` lines 256-259): bold accent
header prefixed with a bullet glyph, then advance the cursor by 22. -/
def titleDraw (st : RState) (title : List Char) : RState :=
  { st with
    cur := st.cur ++
      [Op.setFont "Helvetica-Bold" 14, Op.setFillColor "#7B3FF2",
       Op.drawString 50 st.y ('■' :: ' ' :: title)],
    y := st.y - 22 }

/-- Switching to the body style (`src/server.py` lines 262-263). -/
def bodyStart (st : RState) : RState :=
  { st with cur := st.cur ++ [Op.setFont "Helvetica" 11, Op.setFillColor "#000000"] }

/-- Drawing one wrapped line (`src/server.py` lines 265-270): start a new
page first if the line would cross the bottom margin, then draw and
advance the cursor. -/
def lineStep (st : RState) (ln : List Char) : RState :=
  let st' := if st.y - line_height < bottom_margin then new_page st else st
  { st' with cur := st'.cur ++ [Op.drawString 50 st'.y ln], y := st'.y - line_height }

/-- The body loop of `generate_pdf` (`src/server.py` lines 265-270). -/
def drawLines (st : RState) (lns : List (List Char)) : RState :=
  lns.foldl lineStep st

/-- One iteration of the section loop of `generate_pdf`
(`src/server.py` lines 242-272). -/
def drawSection (st : RState) (sec : List Char × List Char) : RState :=
  let wrapped := wrapBody sec.2
  let st4 := drawLines (bodyStart (titleDraw (coarseAdjust st wrapped) sec.1)) wrapped
  { st4 with y := st4.y - 12 }

/-- The whole document built by `generate_pdf` (`src/server.py` lines
192-278): cover page, flowed content pages, final footer, `showPage`,
`save` (reportlab emits no page after the final `showPage` because no
drawing follows it). -/
def generate_pdf (logo : Bool) (sections : List (List Char × List Char)) : List (List Op) :=
  let st := sections.foldl drawSection { pages := [coverOps logo], cur := [], y := 760 }
  st.pages ++ [st.cur ++ page_footer]

/-- Flat byte-level encoding of an integer. -/
def encodeInt (i : Int) : List Nat := [i.toNat, (-i).toNat]

/-- Flat byte-level encoding of a character list. -/
def encodeStr (s : List Char) : List Nat := s.map Char.toNat

/-- Flat byte-level encoding of one drawing command. -/
def encodeOp : Op → List Nat
  | .drawImage x y w h => 0 :: (encodeInt x ++ encodeInt y ++ encodeInt w ++ encodeInt h)
  | .setFont n s => 1 :: s :: encodeStr n.toList
  | .setFillColor c => 2 :: encodeStr c.toList
  | .drawString x y s => 3 :: (encodeInt x ++ encodeInt y ++ s.length :: encodeStr s)
  | .drawCentredString x y s => 4 :: (encodeInt x ++ encodeInt y ++ s.length :: encodeStr s)

/-- Serialization of the finished document to a single byte stream
(`pdf.save()` / `buffer` of `src/server.py` lines 278-279). -/
def serializePdf (doc : List (List Op)) : List Nat :=
  doc.flatMap (fun p => p.length :: p.flatMap encodeOp)

/-- Tracks the current-font state through a prefix of a page's commands
(reportlab resets the font at each page break, hence the per-page reset
in `new_page`). -/
def stepFont (f : Option (String × Nat)) : Op → Option (String × Nat)
  | Op.setFont n s => some (n, s)
  | _ => f

/-- Font state after a command list. -/
def fontAfter (f : Option (String × Nat)) (ops : List Op) : Option (String × Nat) :=
  ops.foldl stepFont f

/-- The body text style (`src/server.py` line 262). -/
def bodyFont : Option (String × Nat) := some ("Helvetica", 11)

/-- The `(y, text)` pairs of all `drawString` commands issued in the body
style within one page, given the incoming font state. -/
def bodyDraws : Option (String × Nat) → List Op → List (Int × List Char)
  | _, [] => []
  | _, Op.setFont n s :: rest => bodyDraws (some (n, s)) rest
  | f, Op.drawString _ y ln :: rest =>
    (if f = bodyFont then [(y, ln)] else []) ++ bodyDraws f rest
  | f, _ :: rest => bodyDraws f rest

/-- All body-style `drawString` commands of a document, in emitted order. -/
def docBody (doc : List (List Op)) : List (Int × List Char) :=
  doc.flatMap (bodyDraws none)

/-- The body-style draws already emitted by a rendering state. -/
def outBody (st : RState) : List (Int × List Char) :=
  st.pages.flatMap (bodyDraws none) ++ bodyDraws none st.cur

/-- The font state at the end of the current page of a rendering state. -/
def curFont (st : RState) : Option (String × Nat) :=
  fontAfter none st.cur

/-- Is this command a `drawString`? -/
def isDrawString : Op → Bool
  | Op.drawString _ _ _ => true
  | _ => false

/-- Is this command a `drawCentredString`? -/
def isCentred : Op → Bool
  | Op.drawCentredString _ _ _ => true
  | _ => false

/-- Formalization of the closing-page behaviour asserted by the spec: the
last page of the document is a dedicated closing page — it carries no
left-aligned text (`drawString`) and at least two centered strings (the
thank-you message and the URL). -/
def claimClosing (doc : List (List Op)) : Bool :=
  match doc.getLast? with
  | none => false
  | some p => p.all (fun op => !isDrawString op) && decide (2 ≤ p.countP isCentred)

/-- The SanitizedText predicate of the spec, executably: no markdown
marker substring, no emoji-range code point, no run of two or more
consecutive blank lines, no leading or trailing blank lines or
whitespace. -/
def sanitizedText (t : List Char) : Bool :=
  !(decide (['*', '*'] <:+: t)) && !(t.contains '*') && !(t.contains '#') &&
  !(t.contains (Char.ofNat 96)) && !(t.contains '_') &&
  t.all keep && noAdjBlank (splitOnNl t) && (strip t == t)

/-- Characters surviving the markdown-marker removal: the sequential
`replace` passes of the sanitizer delete exactly the characters
`*`, `#`, backtick and `_`. -/
def mdKeep (c : Char) : Bool :=
  !(c == '*') && !(c == '#') && !(c == Char.ofNat 96) && !(c == '_')

/-- Drop one leading empty line, if present (the effect of the final
`strip` on the line structure at the front). -/
def dropHeadNil : List (List Char) → List (List Char)
  | [] :: rest => rest
  | ls => ls

/-- Left-strip the first line (the remaining front effect of `strip`). -/
def lstripHead : List (List Char) → List (List Char)
  | [] => []
  | l :: rest => lstrip l :: rest

/-- Drop one trailing empty line, if present (the effect of the final
`strip` on the line structure at the back). -/
def dropLastNil : List (List Char) → List (List Char)
  | [] => []
  | [l] => if l.isEmpty then [] else [l]
  | l :: l' :: rest => l :: dropLastNil (l' :: rest)

/-- The line-level effect of `strip` on a joined, collapse-normalized
line list. -/
def trimLines (ls : List (List Char)) : List (List Char) :=
  dropLastNil (lstripHead (dropHeadNil ls))

/-- A report text assembled from `(title, body)` pairs: each title is
immediately followed by a colon and its body. -/
def mkText : List (List Char × List Char) → List Char
  | [] => []
  | (t, b) :: r => t ++ ':' :: (b ++ mkText r)

/-- The anchor positions the scanner is expected to find in `mkText`:
one per pair, each at the start of its title. -/
def anchorsOf : Nat → List (List Char × List Char) → List (Nat × List Char)
  | _, [] => []
  | pos, (t, b) :: r => (pos, t) :: anchorsOf (pos + t.length + 1 + b.length) r

/-- A body is anchor-free: no canonical anchor (a title immediately
followed by a colon) occurs as a substring of it.  A body may freely
contain colons that are not preceded by a canonical title. -/
def anchorFree (b : List Char) : Prop :=
  ∀ t ∈ titles, ¬ ((t ++ [':']) <:+: b)

instance decAnchorFree (b : List Char) : Decidable (anchorFree b) :=
  List.decidableBAll _ titles

end RealtyAI

namespace RealtyAI

/-! ### Basic helper lemmas -/

theorem splitOnNl_ne_nil (l : List Char) : splitOnNl l ≠ [] := by
  cases l with
  | nil => simp [splitOnNl]
  | cons c rest =>
    simp only [splitOnNl]
    split
    · simp
    · split <;> simp

theorem wrapBody_ne_nil (body : List Char) : wrapBody body ≠ [] := by
  unfold wrapBody
  obtain ⟨L, Ls, hL⟩ := List.exists_cons_of_ne_nil (splitOnNl_ne_nil body)
  rw [hL, List.flatMap_cons]
  intro h
  rcases List.append_eq_nil.mp h with ⟨h1, -⟩
  revert h1
  split
  · simp
  · next hw => simpa [List.isEmpty_iff] using hw

theorem wrapBody_len_pos (body : List Char) : 1 ≤ (wrapBody body).length := by
  have := wrapBody_ne_nil body
  cases h : wrapBody body with
  | nil => exact absurd h this
  | cons a as => simp

end RealtyAI

namespace RealtyAI

/-! ### C3: determinism of rendering -/

/-- C3: rendering is a pure function of the section list (and the fixed
static-logo configuration): two renders of equal inputs produce
byte-identical serialized output. -/
theorem render_deterministic (logo₁ logo₂ : Bool)
    (sections₁ sections₂ : List (List Char × List Char))
    (hl : logo₁ = logo₂) (hs : sections₁ = sections₂) :
    serializePdf (generate_pdf logo₁ sections₁) = serializePdf (generate_pdf logo₂ sections₂) := by
  rw [hl, hs]

theorem render_deterministic_witness :
    serializePdf (generate_pdf true [("Report".toList, "hi".toList)]) =
      serializePdf (generate_pdf true [("Report".toList, "hi".toList)]) :=
  render_deterministic true true _ _ rfl rfl

/-! ### C9: splitter fallback on zero anchors -/

/-- C9: the splitter is total; when no anchor matches it returns the
single fallback section `("Report", text)` unchanged. -/
theorem split_fallback (text : List Char) (h : findMatches 0 text = []) :
    split_sections_for_pdf text = [("Report".toList, text)] := by
  simp [split_sections_for_pdf, h]

theorem split_fallback_witness :
    findMatches 0 ("no anchors here".toList) = [] ∧
      split_sections_for_pdf ("no anchors here".toList) =
        [("Report".toList, "no anchors here".toList)] :=
  ⟨by decide, split_fallback _ (by decide)⟩

/-! ### C10: one section per anchor match, empty bodies included -/

theorem sectionsOf_map_fst (text : List Char) :
    ∀ ms : List (Nat × List Char), (sectionsOf text ms).map Prod.fst = ms.map Prod.snd
  | [] => by simp [sectionsOf]
  | [(p, t)] => by simp [sectionsOf]
  | (p, t) :: (q, u) :: rest => by
    simp only [sectionsOf, List.map_cons, List.cons.injEq, true_and]
    exact sectionsOf_map_fst text ((q, u) :: rest)

theorem sectionsOf_length (text : List Char) (ms : List (Nat × List Char)) :
    (sectionsOf text ms).length = ms.length := by
  have h := congrArg List.length (sectionsOf_map_fst text ms)
  simpa using h

/-- C10: whenever at least one anchor matches, the splitter emits exactly
one `(title, body)` pair per anchor match, in match order — sections with
empty bodies (adjacent anchors) included, so no match is ever dropped. -/
theorem split_one_section_per_match (text : List Char)
    (h : findMatches 0 text ≠ []) :
    (split_sections_for_pdf text).length = (findMatches 0 text).length ∧
      (split_sections_for_pdf text).map Prod.fst = (findMatches 0 text).map Prod.snd := by
  have hne : (findMatches 0 text).isEmpty = false := by
    simpa [List.isEmpty_iff] using h
  constructor
  · simp [split_sections_for_pdf, hne, sectionsOf_length]
  · simp [split_sections_for_pdf, hne, sectionsOf_map_fst]

theorem split_one_section_per_match_witness :
    findMatches 0 ("Cap Rate:Risk Score: x".toList) ≠ [] ∧
      (split_sections_for_pdf ("Cap Rate:Risk Score: x".toList)).length =
        (findMatches 0 ("Cap Rate:Risk Score: x".toList)).length ∧
      split_sections_for_pdf ("Cap Rate:Risk Score: x".toList) =
        [("Cap Rate".toList, []), ("Risk Score".toList, "x".toList)] :=
  ⟨by decide, (split_one_section_per_match _ (by decide)).1, by decide⟩

end RealtyAI

namespace RealtyAI

/-! ### C2: closing behaviour of the layout engine -/

theorem getLast?_append_singleton {α : Type} (l : List α) (a : α) :
    (l ++ [a]).getLast? = some a := by
  induction l with
  | nil => rfl
  | cons b bs ih =>
    cases hbs : bs ++ [a] with
    | nil => simp at hbs
    | cons x xs =>
      rw [List.cons_append, hbs, List.getLast?_cons_cons, ← hbs, ih]

theorem lineStep_cur_draw (st : RState) (ln : List Char) :
    ∃ pre x y, (lineStep st ln).cur = pre ++ [Op.drawString x y ln] :=
  ⟨_, _, _, rfl⟩

theorem drawLines_cur_draw :
    ∀ (lns : List (List Char)) (st : RState), lns ≠ [] →
      ∃ pre x y s, (drawLines st lns).cur = pre ++ [Op.drawString x y s]
  | [], _, h => absurd rfl h
  | [l], st, _ => by
    obtain ⟨pre, x, y, hc⟩ := lineStep_cur_draw st l
    exact ⟨pre, x, y, l, hc⟩
  | l :: l' :: rest, st, _ =>
    drawLines_cur_draw (l' :: rest) (lineStep st l) (by simp)

theorem drawSection_cur_draw (st : RState) (sec : List Char × List Char) :
    ∃ pre x y s, (drawSection st sec).cur = pre ++ [Op.drawString x y s] := by
  obtain ⟨pre, x, y, s, hc⟩ :=
    drawLines_cur_draw (wrapBody sec.2)
      (bodyStart (titleDraw (coarseAdjust st (wrapBody sec.2)) sec.1)) (wrapBody_ne_nil sec.2)
  exact ⟨pre, x, y, s, hc⟩

theorem foldSections_cur_draw (sections : List (List Char × List Char)) (st : RState)
    (h : sections ≠ []) :
    ∃ pre x y s, (sections.foldl drawSection st).cur = pre ++ [Op.drawString x y s] := by
  rcases List.eq_nil_or_concat' sections with hnil | ⟨L, b, hLb⟩
  · exact absurd hnil h
  · rw [hLb, List.foldl_append, List.foldl_cons, List.foldl_nil]
    exact drawSection_cur_draw _ b

/-- Amended C2: after the last section the engine footers the last content
page, commits it and serializes; it emits no additional closing page
(the last page of every document ends with the running footer and no page
is a footer-free page of centered closing strings). -/
theorem no_closing_page (logo : Bool) (sections : List (List Char × List Char)) :
    (∃ front ops, generate_pdf logo sections = front ++ [ops ++ page_footer]) ∧
      claimClosing (generate_pdf logo sections) = false := by
  constructor
  · exact ⟨_, _, rfl⟩
  · unfold generate_pdf claimClosing
    rw [getLast?_append_singleton]
    rcases List.eq_nil_or_concat' sections with hnil | ⟨L, b, hLb⟩
    · subst hnil
      simp only [List.foldl_nil]
      rfl
    · obtain ⟨pre, x, y, s, hc⟩ := foldSections_cur_draw sections
        { pages := [coverOps logo], cur := [], y := 760 } (by simp [hLb])
      rw [hc]
      simp [isDrawString]

/-- C2 as claimed is false on the code: for a concrete one-section input
the document has exactly two pages (cover and one content page) and its
last page is not a closing page of centered strings. -/
theorem claimed_closing_page_refuted :
    claimClosing (generate_pdf false [("Report".toList, "hi".toList)]) = false ∧
      (generate_pdf false [("Report".toList, "hi".toList)]).length = 2 := by
  decide

end RealtyAI

namespace RealtyAI

/-! ### C4: a section header and the first body line share a page -/

theorem coarseAdjust_y (st : RState) (wrapped : List (List Char))
    (hw : 1 ≤ wrapped.length) :
    bottom_margin ≤ (coarseAdjust st wrapped).y - 22 - line_height := by
  unfold coarseAdjust
  split
  · show bottom_margin ≤ (new_page st).y - 22 - line_height
    simp only [new_page]
    decide
  · next h =>
    push_neg at h
    unfold neededFor line_height bottom_margin at *
    have h1 : (1 : Int) ≤ (wrapped.length : Int) := by exact_mod_cast hw
    omega

/-- C4: the space reservation check starts a new page before the header is
drawn when it fires, and the per-line check never separates the first
wrapped body line from its header: after the header is drawn, drawing the
first wrapped line commits no page, and both the header `drawString` and
the first-line `drawString` sit on the same (current) page. -/
theorem header_first_line_same_page (st : RState) (sec : List Char × List Char)
    (w : List Char) (ws : List (List Char)) (hw : wrapBody sec.2 = w :: ws) :
    (st.y - neededFor (wrapBody sec.2) < bottom_margin →
        coarseAdjust st (wrapBody sec.2) = new_page st) ∧
      (lineStep (bodyStart (titleDraw (coarseAdjust st (wrapBody sec.2)) sec.1)) w).pages =
        (coarseAdjust st (wrapBody sec.2)).pages ∧
      Op.drawString 50 (coarseAdjust st (wrapBody sec.2)).y ('■' :: ' ' :: sec.1) ∈
        (lineStep (bodyStart (titleDraw (coarseAdjust st (wrapBody sec.2)) sec.1)) w).cur ∧
      Op.drawString 50 ((coarseAdjust st (wrapBody sec.2)).y - 22) w ∈
        (lineStep (bodyStart (titleDraw (coarseAdjust st (wrapBody sec.2)) sec.1)) w).cur := by
  have hlen : 1 ≤ (wrapBody sec.2).length := by rw [hw]; simp
  have hy := coarseAdjust_y st (wrapBody sec.2) hlen
  refine ⟨fun h => by unfold coarseAdjust; rw [if_pos h], ?_, ?_, ?_⟩
  · simp only [lineStep, bodyStart, titleDraw]
    rw [if_neg (by simpa using by omega : ¬ ((coarseAdjust st (wrapBody sec.2)).y - 22 - line_height < bottom_margin))]
  · simp only [lineStep, bodyStart, titleDraw]
    rw [if_neg (by simpa using by omega : ¬ ((coarseAdjust st (wrapBody sec.2)).y - 22 - line_height < bottom_margin))]
    simp
  · simp only [lineStep, bodyStart, titleDraw]
    rw [if_neg (by simpa using by omega : ¬ ((coarseAdjust st (wrapBody sec.2)).y - 22 - line_height < bottom_margin))]
    simp

end RealtyAI

namespace RealtyAI

theorem header_first_line_same_page_witness :
    wrapBody ("hi".toList) = ["hi".toList] ∧
      (((RState.mk [] [] 760).y - neededFor (wrapBody ("hi".toList)) < bottom_margin →
          coarseAdjust (RState.mk [] [] 760) (wrapBody ("hi".toList)) =
            new_page (RState.mk [] [] 760)) ∧
        (lineStep (bodyStart (titleDraw (coarseAdjust (RState.mk [] [] 760)
            (wrapBody ("hi".toList))) ("Report".toList))) ("hi".toList)).pages =
          (coarseAdjust (RState.mk [] [] 760) (wrapBody ("hi".toList))).pages ∧
        Op.drawString 50 (coarseAdjust (RState.mk [] [] 760) (wrapBody ("hi".toList))).y
            ('■' :: ' ' :: "Report".toList) ∈
          (lineStep (bodyStart (titleDraw (coarseAdjust (RState.mk [] [] 760)
            (wrapBody ("hi".toList))) ("Report".toList))) ("hi".toList)).cur ∧
        Op.drawString 50 ((coarseAdjust (RState.mk [] [] 760) (wrapBody ("hi".toList))).y - 22)
            ("hi".toList) ∈
          (lineStep (bodyStart (titleDraw (coarseAdjust (RState.mk [] [] 760)
            (wrapBody ("hi".toList))) ("Report".toList))) ("hi".toList)).cur) :=
  ⟨by decide,
   header_first_line_same_page (RState.mk [] [] 760) ("Report".toList, "hi".toList)
     ("hi".toList) [] (by decide)⟩

end RealtyAI

namespace RealtyAI

/-! ### C5/C6: body-line extraction machinery -/

theorem fontAfter_append (f : Option (String × Nat)) (a b : List Op) :
    fontAfter f (a ++ b) = fontAfter (fontAfter f a) b := by
  simp [fontAfter, List.foldl_append]

theorem bodyDraws_append (f : Option (String × Nat)) (a b : List Op) :
    bodyDraws f (a ++ b) = bodyDraws f a ++ bodyDraws (fontAfter f a) b := by
  induction a generalizing f with
  | nil => simp [bodyDraws, fontAfter]
  | cons op rest ih =>
    cases op <;> simp [bodyDraws, fontAfter, stepFont, ih]

theorem bodyDraws_page_footer (f : Option (String × Nat)) :
    bodyDraws f page_footer = [] := rfl

theorem outBody_new_page (st : RState) : outBody (new_page st) = outBody st := by
  simp [outBody, new_page, bodyDraws_append, bodyDraws_page_footer, bodyDraws]

theorem curFont_new_page (st : RState) : curFont (new_page st) = bodyFont := rfl

theorem curFont_lineStep (st : RState) (ln : List Char) (h : curFont st = bodyFont) :
    curFont (lineStep st ln) = bodyFont := by
  unfold lineStep
  split
  · simp [curFont, fontAfter_append, new_page]
    rfl
  · simpa [curFont, fontAfter_append, fontAfter, stepFont] using h

theorem outBody_lineStep (st : RState) (ln : List Char) (h : curFont st = bodyFont) :
    ∃ y', outBody (lineStep st ln) = outBody st ++ [(y', ln)] ∧
      bottom_margin ≤ y' - line_height := by
  unfold lineStep
  split
  · next hc =>
    refine ⟨760, ?_, by decide⟩
    have : outBody { new_page st with
        cur := (new_page st).cur ++ [Op.drawString 50 (new_page st).y ln],
        y := (new_page st).y - line_height } =
        outBody (new_page st) ++ [(760, ln)] := by
      simp [outBody, new_page, bodyDraws_append, bodyDraws, bodyFont]
    rw [this, outBody_new_page]
  · next hc =>
    refine ⟨st.y, ?_, by unfold line_height bottom_margin at *; omega⟩
    simp only [outBody, bodyDraws_append]
    simp only [curFont] at h
    rw [h]
    simp [bodyDraws, bodyFont]

theorem drawLines_out :
    ∀ (lns : List (List Char)) (st : RState), curFont st = bodyFont →
      ∃ ys, outBody (drawLines st lns) = outBody st ++ ys ∧
        ys.map Prod.snd = lns ∧
        (∀ p ∈ ys, bottom_margin ≤ p.1 - line_height) ∧
        curFont (drawLines st lns) = bodyFont
  | [], st, h => ⟨[], by simp [drawLines], by simp, by simp, by simpa [drawLines] using h⟩
  | ln :: rest, st, h => by
    obtain ⟨y', h1, h2⟩ := outBody_lineStep st ln h
    have hf := curFont_lineStep st ln h
    obtain ⟨ys, h3, h4, h5, h6⟩ := drawLines_out rest (lineStep st ln) hf
    refine ⟨(y', ln) :: ys, ?_, by simp [h4], ?_, ?_⟩
    · simpa [drawLines, h1] using h3
    · intro p hp
      rcases List.mem_cons.mp hp with hp | hp
      · subst hp; exact h2
      · exact h5 p hp
    · simpa [drawLines] using h6

theorem outBody_titleDraw (st : RState) (t : List Char) :
    outBody (titleDraw st t) = outBody st := by
  simp [outBody, titleDraw, bodyDraws_append, bodyDraws, bodyFont]

theorem outBody_bodyStart (st : RState) : outBody (bodyStart st) = outBody st := by
  simp [outBody, bodyStart, bodyDraws_append, bodyDraws]

theorem curFont_bodyStart (st : RState) : curFont (bodyStart st) = bodyFont := by
  simp [curFont, bodyStart, fontAfter_append, fontAfter, stepFont]
  rfl

theorem outBody_coarseAdjust (st : RState) (w : List (List Char)) :
    outBody (coarseAdjust st w) = outBody st := by
  unfold coarseAdjust
  split
  · exact outBody_new_page st
  · rfl

theorem drawSection_out (st : RState) (sec : List Char × List Char) :
    ∃ ys, outBody (drawSection st sec) = outBody st ++ ys ∧
      ys.map Prod.snd = wrapBody sec.2 ∧
      ∀ p ∈ ys, bottom_margin ≤ p.1 - line_height := by
  obtain ⟨ys, h1, h2, h3, -⟩ :=
    drawLines_out (wrapBody sec.2)
      (bodyStart (titleDraw (coarseAdjust st (wrapBody sec.2)) sec.1))
      (curFont_bodyStart _)
  refine ⟨ys, ?_, h2, h3⟩
  have hout : outBody (drawSection st sec) =
      outBody (drawLines (bodyStart (titleDraw (coarseAdjust st (wrapBody sec.2)) sec.1))
        (wrapBody sec.2)) := by
    simp [drawSection, outBody]
  rw [hout, h1, outBody_bodyStart, outBody_titleDraw, outBody_coarseAdjust]

theorem foldSections_out :
    ∀ (secs : List (List Char × List Char)) (st : RState),
      ∃ ys, outBody (secs.foldl drawSection st) = outBody st ++ ys ∧
        ys.map Prod.snd = secs.flatMap (fun sec => wrapBody sec.2) ∧
        ∀ p ∈ ys, bottom_margin ≤ p.1 - line_height
  | [], st => ⟨[], by simp, by simp, by simp⟩
  | sec :: rest, st => by
    obtain ⟨ys, h1, h2, h3⟩ := drawSection_out st sec
    obtain ⟨zs, h4, h5, h6⟩ := foldSections_out rest (drawSection st sec)
    refine ⟨ys ++ zs, ?_, by simp [h2, h5], ?_⟩
    · simpa [h1, List.append_assoc] using h4
    · intro p hp
      rcases List.mem_append.mp hp with hp | hp
      · exact h3 p hp
      · exact h6 p hp

theorem docBody_generate_pdf (logo : Bool) (secs : List (List Char × List Char)) :
    ∃ ys, docBody (generate_pdf logo secs) = ys ∧
      ys.map Prod.snd = secs.flatMap (fun sec => wrapBody sec.2) ∧
      ∀ p ∈ ys, bottom_margin ≤ p.1 - line_height := by
  obtain ⟨ys, h1, h2, h3⟩ :=
    foldSections_out secs { pages := [coverOps logo], cur := [], y := 760 }
  refine ⟨ys, ?_, h2, h3⟩
  have hdoc : docBody (generate_pdf logo secs) =
      outBody (secs.foldl drawSection { pages := [coverOps logo], cur := [], y := 760 }) := by
    simp [generate_pdf, docBody, outBody, bodyDraws_append, bodyDraws_page_footer]
  have hinit : outBody { pages := [coverOps logo], cur := [], y := (760 : Int) } = [] := by
    cases logo <;> rfl
  rw [hdoc, h1, hinit, List.nil_append]

/-- C5: pagination never drops or duplicates content — the body-style
lines drawn across all pages, in emitted order, are exactly the wrapped
lines of the sections in order. -/
theorem pagination_no_drop (logo : Bool) (secs : List (List Char × List Char)) :
    (docBody (generate_pdf logo secs)).map Prod.snd =
      secs.flatMap (fun sec => wrapBody sec.2) := by
  obtain ⟨ys, h1, h2, -⟩ := docBody_generate_pdf logo secs
  rw [h1, h2]

/-- C6: no body line is ever drawn past the bottom margin — every
body-style `drawString` of the document satisfies
`y - line_height ≥ bottom_margin`. -/
theorem no_line_below_margin (logo : Bool) (secs : List (List Char × List Char))
    (p : Int × List Char) (hp : p ∈ docBody (generate_pdf logo secs)) :
    bottom_margin ≤ p.1 - line_height := by
  obtain ⟨ys, h1, -, h3⟩ := docBody_generate_pdf logo secs
  exact h3 p (h1 ▸ hp)

theorem no_line_below_margin_witness :
    (738, "hi".toList) ∈ docBody (generate_pdf false [("Report".toList, "hi".toList)]) ∧
      bottom_margin ≤ (738, "hi".toList).1 - line_height :=
  ⟨by decide, no_line_below_margin false [("Report".toList, "hi".toList)] _ (by decide)⟩

end RealtyAI

namespace RealtyAI

/-! ### Sanitizer toolbox: dropWhile / strip lemmas -/

theorem dropWhile_suffix_decomp {α : Type} (p : α → Bool) (l : List α) :
    ∃ t, l = t ++ l.dropWhile p := by
  induction l with
  | nil => exact ⟨[], rfl⟩
  | cons c rest ih =>
    by_cases hc : p c
    · obtain ⟨t, ht⟩ := ih
      exact ⟨c :: t, by simp [List.dropWhile_cons, hc, ← ht]⟩
    · exact ⟨[], by simp [List.dropWhile_cons, hc]⟩

theorem head_dropWhile {α : Type} (p : α → Bool) :
    ∀ (l : List α) (a : α) (x : List α), l.dropWhile p = a :: x → p a = false
  | [], a, x, h => by simp [List.dropWhile] at h
  | c :: rest, a, x, h => by
    by_cases hc : p c
    · exact head_dropWhile p rest a x (by simpa [List.dropWhile_cons, hc] using h)
    · rw [List.dropWhile_cons, if_neg (by simpa using hc)] at h
      cases h
      simpa using hc

theorem dropWhile_idem {α : Type} (p : α → Bool) (l : List α) :
    (l.dropWhile p).dropWhile p = l.dropWhile p := by
  cases h : l.dropWhile p with
  | nil => rfl
  | cons a x =>
    rw [List.dropWhile_cons, if_neg (by simp [head_dropWhile p l a x h])]

theorem dropWhile_all_nil {α : Type} (p : α → Bool) (l : List α)
    (h : l.all p = true) : l.dropWhile p = [] := by
  induction l with
  | nil => rfl
  | cons c rest ih =>
    simp only [List.all_cons, Bool.and_eq_true] at h
    simp [List.dropWhile_cons, h.1, ih h.2]

theorem dropWhile_append_all {α : Type} (p : α → Bool) (y x : List α)
    (h : y.all p = true) : (y ++ x).dropWhile p = x.dropWhile p := by
  induction y with
  | nil => rfl
  | cons c rest ih =>
    simp only [List.all_cons, Bool.and_eq_true] at h
    simp [List.dropWhile_cons, h.1, ih h.2]

theorem dropWhile_ne_nil_of_not_all {α : Type} (p : α → Bool) (y : List α)
    (h : y.all p = false) : y.dropWhile p ≠ [] := by
  induction y with
  | nil => simp at h
  | cons c rest ih =>
    by_cases hc : p c
    · simp only [List.all_cons, hc, Bool.true_and] at h
      simpa [List.dropWhile_cons, hc] using ih h
    · simp [List.dropWhile_cons, hc]

theorem dropWhile_append_not {α : Type} (p : α → Bool) (y x : List α)
    (h : y.dropWhile p ≠ []) : (y ++ x).dropWhile p = y.dropWhile p ++ x := by
  induction y with
  | nil => exact absurd rfl h
  | cons c rest ih =>
    by_cases hc : p c
    · rw [List.dropWhile_cons, if_pos (by simpa using hc)] at h
      simpa [List.dropWhile_cons, hc] using ih h
    · simp [List.dropWhile_cons, hc]

theorem dropWhile_eq_self_append {α : Type} (p : α → Bool) (x y : List α)
    (h : (x ++ y).dropWhile p = x ++ y) : x.dropWhile p = x := by
  cases x with
  | nil => rfl
  | cons a x' =>
    by_cases ha : p a
    · exfalso
      rw [List.cons_append, List.dropWhile_cons, if_pos (by simpa using ha)] at h
      obtain ⟨t, ht⟩ := dropWhile_suffix_decomp p (x' ++ y)
      have := congrArg List.length ht
      rw [h] at this
      simp at this
      omega
    · simp [List.dropWhile_cons, ha]

theorem all_reverse' {α : Type} (p : α → Bool) (l : List α) :
    l.reverse.all p = l.all p := by
  rcases h : l.all p with _ | _
  · rcases hr : l.reverse.all p with _ | _
    · rfl
    · rw [List.all_eq_true] at hr
      rw [List.all_eq_false] at h
      obtain ⟨c, hc, hpc⟩ := h
      exact absurd (hr c (List.mem_reverse.mpr hc)) (by simp [hpc])
  · rw [List.all_eq_true] at h
    rw [List.all_eq_true]
    intro c hc
    exact h c (List.mem_reverse.mp hc)

theorem lstrip_idem (l : List Char) : lstrip (lstrip l) = lstrip l :=
  dropWhile_idem isWs l

theorem rstrip_idem (l : List Char) : rstrip (rstrip l) = rstrip l := by
  simp [rstrip, List.reverse_reverse, dropWhile_idem]

theorem rstrip_pref (l : List Char) : ∃ t, l = rstrip l ++ t := by
  obtain ⟨t, ht⟩ := dropWhile_suffix_decomp isWs l.reverse
  refine ⟨t.reverse, ?_⟩
  have := congrArg List.reverse ht
  simpa [rstrip, List.reverse_append] using this

theorem mem_lstrip {c : Char} {l : List Char} (h : c ∈ lstrip l) : c ∈ l := by
  obtain ⟨t, ht⟩ := dropWhile_suffix_decomp isWs l
  rw [ht]
  exact List.mem_append_right t h

theorem mem_rstrip {c : Char} {l : List Char} (h : c ∈ rstrip l) : c ∈ l := by
  obtain ⟨t, ht⟩ := rstrip_pref l
  rw [ht]
  exact List.mem_append_left t h

theorem mem_strip {c : Char} {l : List Char} (h : c ∈ strip l) : c ∈ l :=
  mem_lstrip (mem_rstrip h)

theorem rstrip_allWs {l : List Char} (h : l.all isWs = true) : rstrip l = [] := by
  simp [rstrip, dropWhile_all_nil isWs l.reverse (by rw [all_reverse'] ; exact h)]

theorem blank_eq_nil {l : List Char} (h1 : rstrip l = l) (h2 : l.all isWs = true) :
    l = [] := by
  rw [← h1, rstrip_allWs h2]

theorem rstrip_eq_self_iff (l : List Char) :
    rstrip l = l ↔ l.reverse.dropWhile isWs = l.reverse := by
  constructor
  · intro h
    have := congrArg List.reverse h
    simpa [rstrip] using this
  · intro h
    simp [rstrip, h]

theorem rstrip_lstrip {l : List Char} (h : rstrip l = l) :
    rstrip (lstrip l) = lstrip l := by
  rw [rstrip_eq_self_iff] at h ⊢
  obtain ⟨t, ht⟩ := dropWhile_suffix_decomp isWs l
  have hrev : l.reverse = (lstrip l).reverse ++ t.reverse := by
    conv_lhs => rw [ht]
    simp [lstrip, List.reverse_append]
  rw [hrev] at h
  exact dropWhile_eq_self_append isWs _ _ h

theorem lstrip_all_iff (l : List Char) : (lstrip l).all isWs = l.all isWs := by
  induction l with
  | nil => rfl
  | cons c rest ih =>
    by_cases hc : isWs c
    · rw [show lstrip (c :: rest) = lstrip rest from by simp [lstrip, List.dropWhile_cons, hc], ih]
      simp [List.all_cons, hc]
    · simp [lstrip, List.dropWhile_cons, hc]

theorem strip_idem (l : List Char) : strip (strip l) = strip l := by
  unfold strip
  have hl : lstrip (rstrip (lstrip l)) = rstrip (lstrip l) := by
    cases h : rstrip (lstrip l) with
    | nil => rfl
    | cons a x =>
      obtain ⟨t, ht⟩ := rstrip_pref (lstrip l)
      rw [h] at ht
      have ha : isWs a = false := by
        have : lstrip l = a :: (x ++ t) := by simpa using ht
        exact head_dropWhile isWs l a (x ++ t) this
      simp [lstrip, List.dropWhile_cons, ha]
  rw [hl, rstrip_idem]

theorem rstrip_append_ws (x y : List Char) (h : y.all isWs = true) :
    rstrip (x ++ y) = rstrip x := by
  simp only [rstrip, List.reverse_append]
  rw [dropWhile_append_all isWs y.reverse x.reverse (by rw [all_reverse']; exact h)]

theorem rstrip_append_not (x y : List Char) (h : y.all isWs = false) :
    rstrip (x ++ y) = x ++ rstrip y := by
  simp only [rstrip, List.reverse_append]
  rw [dropWhile_append_not isWs y.reverse x.reverse
    (dropWhile_ne_nil_of_not_all isWs y.reverse (by rw [all_reverse']; exact h))]
  simp [List.reverse_append]

theorem lstrip_append_not (x y : List Char) (h : x.all isWs = false) :
    lstrip (x ++ y) = lstrip x ++ y :=
  dropWhile_append_not isWs x y (dropWhile_ne_nil_of_not_all isWs x h)

end RealtyAI

namespace RealtyAI

/-! ### splitOnNl / joinNl correspondence -/

theorem joinNl_splitOnNl (l : List Char) : joinNl (splitOnNl l) = l := by
  induction l with
  | nil => rfl
  | cons c rest ih =>
    by_cases hc : c = '\n'
    · subst hc
      rw [show splitOnNl ('\n' :: rest) = [] :: splitOnNl rest from by simp [splitOnNl]]
      obtain ⟨L, Ls, hL⟩ := List.exists_cons_of_ne_nil (splitOnNl_ne_nil rest)
      rw [hL]
      rw [hL] at ih
      simpa [joinNl] using ih
    · obtain ⟨L, Ls, hL⟩ := List.exists_cons_of_ne_nil (splitOnNl_ne_nil rest)
      rw [show splitOnNl (c :: rest) = (c :: L) :: Ls from by simp [splitOnNl, hc, hL]]
      rw [hL] at ih
      cases Ls with
      | nil =>
        simp only [joinNl] at ih ⊢
        rw [ih]
      | cons M Ms =>
        simp only [joinNl] at ih ⊢
        rw [List.cons_append, ih]

theorem mem_splitOnNl : ∀ (l : List Char), ∀ L ∈ splitOnNl l, ∀ c ∈ L, c ∈ l := by
  intro l
  induction l with
  | nil =>
    intro L hL c hc
    simp [splitOnNl] at hL
    subst hL
    simp at hc
  | cons a rest ih =>
    intro L hL c hc
    by_cases ha : a = '\n'
    · subst ha
      rw [show splitOnNl ('\n' :: rest) = [] :: splitOnNl rest from by simp [splitOnNl]] at hL
      rcases List.mem_cons.mp hL with hL | hL
      · subst hL; simp at hc
      · exact List.mem_cons_of_mem _ (ih L hL c hc)
    · obtain ⟨M, Ms, hM⟩ := List.exists_cons_of_ne_nil (splitOnNl_ne_nil rest)
      rw [show splitOnNl (a :: rest) = (a :: M) :: Ms from by simp [splitOnNl, ha, hM]] at hL
      rcases List.mem_cons.mp hL with hL | hL
      · subst hL
        rcases List.mem_cons.mp hc with hc | hc
        · subst hc; simp
        · exact List.mem_cons_of_mem _ (ih M (by rw [hM]; simp) c hc)
      · exact List.mem_cons_of_mem _ (ih L (by rw [hM]; exact List.mem_cons_of_mem _ hL) c hc)

theorem noNl_splitOnNl : ∀ (l : List Char), ∀ L ∈ splitOnNl l, '\n' ∉ L := by
  intro l
  induction l with
  | nil =>
    intro L hL
    simp [splitOnNl] at hL
    subst hL
    simp
  | cons a rest ih =>
    intro L hL
    by_cases ha : a = '\n'
    · subst ha
      rw [show splitOnNl ('\n' :: rest) = [] :: splitOnNl rest from by simp [splitOnNl]] at hL
      rcases List.mem_cons.mp hL with hL | hL
      · subst hL; simp
      · exact ih L hL
    · obtain ⟨M, Ms, hM⟩ := List.exists_cons_of_ne_nil (splitOnNl_ne_nil rest)
      rw [show splitOnNl (a :: rest) = (a :: M) :: Ms from by simp [splitOnNl, ha, hM]] at hL
      rcases List.mem_cons.mp hL with hL | hL
      · subst hL
        intro hmem
        rcases List.mem_cons.mp hmem with h | h
        · exact ha h.symm
        · exact ih M (by rw [hM]; simp) h
      · exact ih L (by rw [hM]; exact List.mem_cons_of_mem _ hL)

theorem splitOnNl_noNl (l : List Char) (h : '\n' ∉ l) : splitOnNl l = [l] := by
  induction l with
  | nil => rfl
  | cons a rest ih =>
    have ha : ¬ a = '\n' := fun hh => h (by rw [hh]; simp)
    have hrest := ih (fun hm => h (List.mem_cons_of_mem a hm))
    simp [splitOnNl, ha, hrest]

theorem splitOnNl_append_nl (L l : List Char) (h : '\n' ∉ L) :
    splitOnNl (L ++ '\n' :: l) = L :: splitOnNl l := by
  induction L with
  | nil => simp [splitOnNl]
  | cons a L' ih =>
    have ha : ¬ a = '\n' := fun hh => h (by rw [hh]; simp)
    have hL' := ih (fun hm => h (List.mem_cons_of_mem a hm))
    simp [splitOnNl, ha, hL']

theorem splitOnNl_joinNl : ∀ (ls : List (List Char)), ls ≠ [] →
    (∀ L ∈ ls, '\n' ∉ L) → splitOnNl (joinNl ls) = ls
  | [], h, _ => absurd rfl h
  | [l], _, hL => by simp [joinNl, splitOnNl_noNl l (hL l (by simp))]
  | l :: l' :: ls, _, hL => by
    rw [show joinNl (l :: l' :: ls) = l ++ '\n' :: joinNl (l' :: ls) from rfl]
    rw [splitOnNl_append_nl l _ (hL l (by simp))]
    rw [splitOnNl_joinNl (l' :: ls) (by simp) (fun M hM => hL M (List.mem_cons_of_mem l hM))]

theorem mem_joinNl : ∀ (ls : List (List Char)) (c : Char),
    c ∈ joinNl ls → c = '\n' ∨ ∃ L, L ∈ ls ∧ c ∈ L
  | [], c, h => by simp [joinNl] at h
  | [l], c, h => Or.inr ⟨l, by simp, by simpa [joinNl] using h⟩
  | l :: l' :: ls, c, h => by
    rw [show joinNl (l :: l' :: ls) = l ++ '\n' :: joinNl (l' :: ls) from rfl] at h
    rcases List.mem_append.mp h with h | h
    · exact Or.inr ⟨l, by simp, h⟩
    · rcases List.mem_cons.mp h with h | h
      · exact Or.inl h
      · rcases mem_joinNl (l' :: ls) c h with h | ⟨L, hL, hc⟩
        · exact Or.inl h
        · exact Or.inr ⟨L, List.mem_cons_of_mem l hL, hc⟩

theorem mem_joinNl_of : ∀ (ls : List (List Char)) (L : List Char) (c : Char),
    L ∈ ls → c ∈ L → c ∈ joinNl ls
  | [], L, c, hL, _ => by simp at hL
  | [l], L, c, hL, hc => by
    simp at hL
    subst hL
    simpa [joinNl] using hc
  | l :: l' :: ls, L, c, hL, hc => by
    rw [show joinNl (l :: l' :: ls) = l ++ '\n' :: joinNl (l' :: ls) from rfl]
    rcases List.mem_cons.mp hL with hL | hL
    · subst hL
      exact List.mem_append_left _ hc
    · exact List.mem_append_right _
        (List.mem_cons_of_mem _ (mem_joinNl_of (l' :: ls) L c hL hc))

/-! ### collapseBlank invariants -/

theorem collapseBlank_rstripped : ∀ (sk : Bool) (ls : List (List Char)),
    (∀ L ∈ ls, rstrip L = L) → ∀ L ∈ collapseBlank sk ls, rstrip L = L
  | _, [], _, L, hL => by simp [collapseBlank] at hL
  | sk, l :: rest, h, L, hL => by
    have tail_r : ∀ M ∈ rest, rstrip M = M := fun M hM => h M (List.mem_cons_of_mem l hM)
    simp only [collapseBlank] at hL
    split at hL
    · rcases List.mem_append.mp hL with hL | hL
      · cases sk with
        | true => simp at hL
        | false =>
          simp at hL
          subst hL
          rfl
      · exact collapseBlank_rstripped true rest tail_r L hL
    · rcases List.mem_cons.mp hL with hL | hL
      · subst hL
        exact h L (by simp)
      · exact collapseBlank_rstripped false rest tail_r L hL

theorem collapseBlank_mem : ∀ (sk : Bool) (ls : List (List Char)) (L : List Char),
    L ∈ collapseBlank sk ls → L = [] ∨ L ∈ ls
  | _, [], L, hL => by simp [collapseBlank] at hL
  | sk, l :: rest, L, hL => by
    simp only [collapseBlank] at hL
    split at hL
    · rcases List.mem_append.mp hL with hL | hL
      · cases sk with
        | true => simp at hL
        | false => simp at hL; exact Or.inl hL
      · rcases collapseBlank_mem true rest L hL with h | h
        · exact Or.inl h
        · exact Or.inr (List.mem_cons_of_mem l h)
    · rcases List.mem_cons.mp hL with hL | hL
      · exact Or.inr (by rw [hL]; simp)
      · rcases collapseBlank_mem false rest L hL with h | h
        · exact Or.inl h
        · exact Or.inr (List.mem_cons_of_mem l h)

theorem collapseBlank_head_true : ∀ (ls : List (List Char)) (L : List Char),
    (collapseBlank true ls).head? = some L → L.all isWs = false
  | [], L, h => by simp [collapseBlank] at h
  | l :: rest, L, h => by
    by_cases hb : l.all isWs = true
    · rw [show collapseBlank true (l :: rest) = collapseBlank true rest from by
        simp [collapseBlank, hb]] at h
      exact collapseBlank_head_true rest L h
    · rw [show collapseBlank true (l :: rest) = l :: collapseBlank false rest from by
        simp [collapseBlank, hb]] at h
      simp at h
      subst h
      simpa using hb

theorem noAdjBlank_tail (a : List Char) (ls : List (List Char))
    (h : noAdjBlank (a :: ls) = true) : noAdjBlank ls = true := by
  cases ls with
  | nil => rfl
  | cons b r =>
    simp only [noAdjBlank, Bool.and_eq_true] at h
    exact h.2

theorem collapseBlank_noAdj : ∀ (sk : Bool) (ls : List (List Char)),
    noAdjBlank (collapseBlank sk ls) = true
  | _, [] => rfl
  | sk, l :: rest => by
    by_cases hb : l.all isWs = true
    · cases sk with
      | true =>
        rw [show collapseBlank true (l :: rest) = collapseBlank true rest from by
          simp [collapseBlank, hb]]
        exact collapseBlank_noAdj true rest
      | false =>
        rw [show collapseBlank false (l :: rest) = [] :: collapseBlank true rest from by
          simp [collapseBlank, hb]]
        cases hX : collapseBlank true rest with
        | nil => rfl
        | cons M Ms =>
          have hM := collapseBlank_head_true rest M (by rw [hX]; rfl)
          have hind := collapseBlank_noAdj true rest
          rw [hX] at hind
          simp [noAdjBlank, hM, hind]
    · have hb' : l.all isWs = false := by simpa using hb
      rw [show collapseBlank sk (l :: rest) = l :: collapseBlank false rest from by
        simp [collapseBlank, hb]]
      cases hX : collapseBlank false rest with
      | nil => rfl
      | cons M Ms =>
        have hind := collapseBlank_noAdj false rest
        rw [hX] at hind
        simp only [noAdjBlank, Bool.and_eq_true]
        exact ⟨by simp [hb'], hind⟩

theorem collapseBlank_id : ∀ (ls : List (List Char)),
    (∀ L ∈ ls, rstrip L = L) → noAdjBlank ls = true →
    collapseBlank false ls = ls ∧
      ((∀ M, ls.head? = some M → M.all isWs = false) → collapseBlank true ls = ls)
  | [], _, _ => ⟨rfl, fun _ => rfl⟩
  | l :: rest, hr, hadj => by
    have tail_r : ∀ L ∈ rest, rstrip L = L := fun L hL => hr L (List.mem_cons_of_mem l hL)
    have tail_adj := noAdjBlank_tail l rest hadj
    obtain ⟨ih1, ih2⟩ := collapseBlank_id rest tail_r tail_adj
    by_cases hb : l.all isWs = true
    · have hl : l = [] := blank_eq_nil (hr l (by simp)) hb
      constructor
      · rw [show collapseBlank false (l :: rest) = [[]] ++ collapseBlank true rest from by
          simp [collapseBlank, hb]]
        cases hrest : rest with
        | nil => simp [collapseBlank, hl]
        | cons M Ms =>
          have hM : M.all isWs = false := by
            rw [hrest] at hadj
            simp only [noAdjBlank, Bool.and_eq_true, Bool.not_eq_true',
              Bool.and_eq_false_iff] at hadj
            rcases hadj.1 with h | h
            · exact absurd hb (by simp [h])
            · exact h
          rw [← hrest]
          rw [ih2 (fun M' hM' => by
            rw [hrest] at hM'
            simp at hM'
            exact hM' ▸ hM)]
          simp [hl]
      · intro hhead
        exact absurd hb (by simp [hhead l rfl])
    · constructor
      · rw [show collapseBlank false (l :: rest) = l :: collapseBlank false rest from by
          simp [collapseBlank, hb]]
        rw [ih1]
      · intro _
        rw [show collapseBlank true (l :: rest) = l :: collapseBlank false rest from by
          simp [collapseBlank, hb]]
        rw [ih1]

end RealtyAI

namespace RealtyAI

/-! ### The line-level effect of strip on a joined normalized line list -/

theorem dropHeadNil_cons_ne (l : List Char) (rest : List (List Char)) (h : l ≠ []) :
    dropHeadNil (l :: rest) = l :: rest := by
  cases l with
  | nil => exact absurd rfl h
  | cons a x => rfl

theorem rstrip_joinNl : ∀ (ls : List (List Char)),
    (∀ L ∈ ls, rstrip L = L) → noAdjBlank ls = true →
    rstrip (joinNl ls) = joinNl (dropLastNil ls)
  | [], _, _ => rfl
  | [l], hr, _ => by
    have h := hr l (by simp)
    by_cases hl : l = []
    · subst hl
      rfl
    · rw [show joinNl [l] = l from rfl, h]
      rw [show dropLastNil [l] = [l] from by
        simp [dropLastNil, List.isEmpty_iff, hl]]
      rfl
  | l :: l' :: ls, hr, hadj => by
    have tail_r : ∀ M ∈ l' :: ls, rstrip M = M := fun M hM =>
      hr M (List.mem_cons_of_mem l hM)
    have tail_adj := noAdjBlank_tail l (l' :: ls) hadj
    rw [show joinNl (l :: l' :: ls) = l ++ '\n' :: joinNl (l' :: ls) from rfl]
    rw [show dropLastNil (l :: l' :: ls) = l :: dropLastNil (l' :: ls) from rfl]
    by_cases hall : (l' :: ls).all (fun M => M.all isWs) = true
    · have h1 : l'.all isWs = true ∧ ls.all (fun M => M.all isWs) = true := by
        simpa [List.all_cons, Bool.and_eq_true] using hall
      have hl'nil : l' = [] := blank_eq_nil (tail_r l' (by simp)) h1.1
      have hls : ls = [] := by
        cases ls with
        | nil => rfl
        | cons M Ms =>
          have hM : M.all isWs = true := by
            have h2 := h1.2
            simp only [List.all_cons, Bool.and_eq_true] at h2
            exact h2.1
          simp only [noAdjBlank, Bool.and_eq_true, Bool.not_eq_true',
            Bool.and_eq_false_iff] at tail_adj
          rcases tail_adj.1 with h | h
          · rw [h1.1] at h; exact absurd h (by simp)
          · rw [hM] at h; exact absurd h (by simp)
      subst hls
      subst hl'nil
      rw [show ('\n' :: joinNl [([] : List Char)]) = ['\n'] from rfl]
      rw [rstrip_append_ws l ['\n'] (by decide), hr l (by simp)]
      rfl
    · have hallf : (l' :: ls).all (fun M => M.all isWs) = false := by
        simpa using hall
      rw [List.all_eq_false] at hallf
      obtain ⟨M0, hM0mem, hM0⟩ := hallf
      have hM0' : M0.all isWs = false := by simpa using hM0
      rw [List.all_eq_false] at hM0'
      obtain ⟨c0, hc0mem, hc0⟩ := hM0'
      have hc0' : isWs c0 = false := by simpa using hc0
      have hc0z : c0 ∈ joinNl (l' :: ls) := mem_joinNl_of (l' :: ls) M0 c0 hM0mem hc0mem
      have hz : (joinNl (l' :: ls)).all isWs = false := by
        rw [List.all_eq_false]
        exact ⟨c0, hc0z, by simp [hc0']⟩
      have h1 : rstrip (l ++ '\n' :: joinNl (l' :: ls)) =
          l ++ '\n' :: rstrip (joinNl (l' :: ls)) := by
        have h2 := rstrip_append_not (l ++ ['\n']) (joinNl (l' :: ls)) hz
        simpa [List.append_assoc] using h2
      rw [h1, rstrip_joinNl (l' :: ls) tail_r tail_adj]
      have hD : dropLastNil (l' :: ls) ≠ [] := by
        cases ls with
        | nil =>
          have : ¬ l' = [] := by
            intro hl'
            apply hM0
            simp at hM0mem
            subst hM0mem
            simp [hl']
          simp [dropLastNil, List.isEmpty_iff, this]
        | cons M Ms => simp [dropLastNil]
      obtain ⟨d, ds, hd⟩ := List.exists_cons_of_ne_nil hD
      rw [hd]
      rfl

theorem lstrip_joinNl_nonblank_head : ∀ (ls : List (List Char)) (l : List Char),
    l.all isWs = false →
    lstrip (joinNl (l :: ls)) = joinNl (lstrip l :: ls) := by
  intro ls l hl
  cases ls with
  | nil => rfl
  | cons M Ms =>
    rw [show joinNl (l :: M :: Ms) = l ++ '\n' :: joinNl (M :: Ms) from rfl]
    rw [lstrip_append_not l _ hl]
    rfl

theorem lstrip_joinNl : ∀ (ls : List (List Char)),
    (∀ L ∈ ls, rstrip L = L) → noAdjBlank ls = true →
    lstrip (joinNl ls) = joinNl (lstripHead (dropHeadNil ls))
  | [], _, _ => rfl
  | [l], hr, _ => by
    by_cases hl : l = []
    · subst hl
      rfl
    · rw [dropHeadNil_cons_ne l [] hl]
      by_cases hb : l.all isWs = true
      · exact absurd (blank_eq_nil (hr l (by simp)) hb) hl
      · exact lstrip_joinNl_nonblank_head [] l (by simpa using hb)
  | l :: l' :: ls, hr, hadj => by
    by_cases hl : l = []
    · subst hl
      have hl' : l'.all isWs = false := by
        simp only [noAdjBlank, Bool.and_eq_true, Bool.not_eq_true',
          Bool.and_eq_false_iff] at hadj
        rcases hadj.1 with h | h
        · simp at h
        · exact h
      rw [show joinNl ([] :: l' :: ls) = '\n' :: joinNl (l' :: ls) from rfl]
      rw [show lstrip ('\n' :: joinNl (l' :: ls)) = lstrip (joinNl (l' :: ls)) from by
        simp [lstrip, List.dropWhile_cons, isWs]]
      rw [show dropHeadNil ([] :: l' :: ls) = l' :: ls from rfl]
      exact lstrip_joinNl_nonblank_head ls l' hl'
    · have hb : l.all isWs = false := by
        rcases h : l.all isWs with _ | _
        · rfl
        · exact absurd (blank_eq_nil (hr l (by simp)) h) hl
      rw [dropHeadNil_cons_ne l (l' :: ls) hl]
      exact lstrip_joinNl_nonblank_head (l' :: ls) l hb

theorem strip_joinNl (ls : List (List Char))
    (hr : ∀ L ∈ ls, rstrip L = L) (hadj : noAdjBlank ls = true) :
    strip (joinNl ls) = joinNl (trimLines ls) := by
  have hr' : ∀ L ∈ dropHeadNil ls, rstrip L = L := by
    intro L hL
    apply hr
    cases ls with
    | nil => simp [dropHeadNil] at hL
    | cons a rest =>
      cases a with
      | nil => exact List.mem_cons_of_mem _ (by simpa [dropHeadNil] using hL)
      | cons x xs => simpa [dropHeadNil] using hL
  have hadj' : noAdjBlank (dropHeadNil ls) = true := by
    cases ls with
    | nil => rfl
    | cons a rest =>
      cases a with
      | nil => exact noAdjBlank_tail _ _ hadj
      | cons x xs => exact hadj
  have hr'' : ∀ L ∈ lstripHead (dropHeadNil ls), rstrip L = L := by
    cases hD : dropHeadNil ls with
    | nil => simp [lstripHead]
    | cons a rest =>
      intro L hL
      simp only [lstripHead] at hL
      rcases List.mem_cons.mp hL with hL | hL
      · subst hL
        exact rstrip_lstrip (hr' a (by rw [hD]; simp))
      · exact hr' L (by rw [hD]; exact List.mem_cons_of_mem _ hL)
  have hadj'' : noAdjBlank (lstripHead (dropHeadNil ls)) = true := by
    cases hD : dropHeadNil ls with
    | nil => rfl
    | cons a rest =>
      rw [hD] at hadj'
      cases rest with
      | nil => rfl
      | cons m ms =>
        simp only [lstripHead, noAdjBlank, Bool.and_eq_true] at hadj' ⊢
        refine ⟨?_, hadj'.2⟩
        rw [lstrip_all_iff]
        exact hadj'.1
  unfold strip trimLines
  rw [lstrip_joinNl ls hr hadj]
  exact rstrip_joinNl (lstripHead (dropHeadNil ls)) hr'' hadj''

end RealtyAI

namespace RealtyAI

/-! ### Markdown-marker removal characterization -/

theorem listReplace_single (c : Char) : ∀ l : List Char,
    listReplace [c] l = l.filter (fun a => !(a == c))
  | [] => by simp [listReplace]
  | a :: rest => by
    by_cases hca : c = a
    · subst hca
      rw [show listReplace [c] (c :: rest) = listReplace [c] rest from by
        simp [listReplace, List.isPrefixOf]]
      rw [listReplace_single c rest]
      simp
    · have hba : (c == a) = false := by simp [hca]
      have hab : (a == c) = false := by simp [Ne.symm hca]
      rw [show listReplace [c] (a :: rest) = a :: listReplace [c] rest from by
        simp [listReplace, List.isPrefixOf, hba]]
      rw [listReplace_single c rest]
      simp [List.filter_cons, hab]

theorem listReplace_pair (c : Char) : ∀ l : List Char,
    (listReplace [c, c] l).filter (fun a => !(a == c)) =
      l.filter (fun a => !(a == c))
  | [] => by simp [listReplace]
  | [a] => by
    rw [show listReplace [c, c] [a] = [a] from by simp [listReplace, List.isPrefixOf]]
  | a :: b :: rest => by
    by_cases h : c = a ∧ c = b
    · obtain ⟨h1, h2⟩ := h
      rw [← h1, ← h2]
      rw [show listReplace [c, c] (c :: c :: rest) = listReplace [c, c] rest from by
        simp [listReplace, List.isPrefixOf]]
      rw [listReplace_pair c rest]
      simp [List.filter_cons]
    · have hpre : ([c, c].isPrefixOf (a :: b :: rest)) = false := by
        rcases not_and_or.mp h with h | h
        · simp [List.isPrefixOf, h]
        · simp [List.isPrefixOf, h]
      rw [show listReplace [c, c] (a :: b :: rest) = a :: listReplace [c, c] (b :: rest) from by
        simp [listReplace, hpre]]
      rw [List.filter_cons, List.filter_cons]
      rw [listReplace_pair c (b :: rest)]

theorem listReplace_not_mem (p0 : Char) (ps : List Char) :
    ∀ l : List Char, p0 ∉ l → listReplace (p0 :: ps) l = l
  | [], _ => by simp [listReplace]
  | a :: rest, h => by
    have hne : (p0 == a) = false := by
      have hne' : p0 ≠ a := fun hh => h (by rw [hh]; simp)
      simp [hne']
    rw [show listReplace (p0 :: ps) (a :: rest) = a :: listReplace (p0 :: ps) rest from by
      simp [listReplace, List.isPrefixOf, hne]]
    rw [listReplace_not_mem p0 ps rest (fun hm => h (List.mem_cons_of_mem a hm))]

theorem mem_removeMd {a : Char} {l : List Char} (h : a ∈ removeMd l) :
    a ∈ l ∧ mdKeep a = true := by
  unfold removeMd mdTokens at h
  simp only [List.foldl_cons, List.foldl_nil] at h
  rw [listReplace_single] at h
  rw [List.mem_filter] at h
  obtain ⟨h, h5⟩ := h
  rw [listReplace_single] at h
  rw [List.mem_filter] at h
  obtain ⟨h, h4⟩ := h
  rw [listReplace_single] at h
  rw [List.mem_filter] at h
  obtain ⟨h, h3⟩ := h
  rw [listReplace_single] at h
  rw [List.mem_filter] at h
  obtain ⟨h, h2⟩ := h
  have h1 : a ∈ List.filter (fun x => !(x == '*')) l := by
    rw [← listReplace_pair '*' l]
    exact List.mem_filter.mpr ⟨h, h2⟩
  rw [List.mem_filter] at h1
  refine ⟨h1.1, ?_⟩
  simp only [mdKeep]
  rw [Bool.and_eq_true, Bool.and_eq_true, Bool.and_eq_true]
  exact ⟨⟨⟨h1.2, h3⟩, h4⟩, h5⟩

theorem removeMd_id {l : List Char} (h : ∀ a ∈ l, mdKeep a = true) :
    removeMd l = l := by
  have hstar : '*' ∉ l := fun hm => by
    have hh := h _ hm
    simp [mdKeep] at hh
  have hhash : '#' ∉ l := fun hm => by
    have hh := h _ hm
    simp [mdKeep] at hh
  have hbt : Char.ofNat 96 ∉ l := fun hm => by
    have hh := h _ hm
    simp [mdKeep] at hh
  have hund : '_' ∉ l := fun hm => by
    have hh := h _ hm
    simp [mdKeep] at hh
  unfold removeMd mdTokens
  simp only [List.foldl_cons, List.foldl_nil]
  rw [listReplace_not_mem '*' ['*'] l hstar,
      listReplace_not_mem '*' [] l hstar,
      listReplace_not_mem '#' [] l hhash,
      listReplace_not_mem (Char.ofNat 96) [] l hbt,
      listReplace_not_mem '_' [] l hund]

end RealtyAI

namespace RealtyAI

/-! ### Shape of the sanitizer output -/

theorem mem_dropHeadNil : ∀ (ls : List (List Char)), ∀ L ∈ dropHeadNil ls, L ∈ ls := by
  intro ls L hL
  cases ls with
  | nil => simp [dropHeadNil] at hL
  | cons a rest =>
    cases a with
    | nil => exact List.mem_cons_of_mem _ hL
    | cons x xs =>
      rw [dropHeadNil_cons_ne (x :: xs) rest (by simp)] at hL
      exact hL

theorem mem_dropLastNil : ∀ (ls : List (List Char)), ∀ L ∈ dropLastNil ls, L ∈ ls
  | [], L, hL => by simp [dropLastNil] at hL
  | [l], L, hL => by
    simp only [dropLastNil] at hL
    split at hL
    · simp at hL
    · simpa using hL
  | l :: l' :: rest, L, hL => by
    rw [show dropLastNil (l :: l' :: rest) = l :: dropLastNil (l' :: rest) from rfl] at hL
    rcases List.mem_cons.mp hL with h | h
    · rw [h]; simp
    · exact List.mem_cons_of_mem _ (mem_dropLastNil (l' :: rest) L h)

theorem head_dropLastNil (l' : List Char) (rest : List (List Char)) :
    dropLastNil (l' :: rest) = [] ∨ ∃ ds, dropLastNil (l' :: rest) = l' :: ds := by
  cases rest with
  | nil =>
    by_cases h : l'.isEmpty
    · exact Or.inl (by simp [dropLastNil, h])
    · exact Or.inr ⟨[], by simp [dropLastNil, h]⟩
  | cons m ms => exact Or.inr ⟨dropLastNil (m :: ms), rfl⟩

theorem noAdj_dropLastNil : ∀ (ls : List (List Char)), noAdjBlank ls = true →
    noAdjBlank (dropLastNil ls) = true
  | [], _ => rfl
  | [l], _ => by
    simp only [dropLastNil]
    split <;> rfl
  | l :: l' :: rest, h => by
    have htail := noAdjBlank_tail l _ h
    have hrec := noAdj_dropLastNil (l' :: rest) htail
    rw [show dropLastNil (l :: l' :: rest) = l :: dropLastNil (l' :: rest) from rfl]
    rcases head_dropLastNil l' rest with hD | ⟨ds, hD⟩
    · rw [hD]; rfl
    · rw [hD]
      rw [hD] at hrec
      simp only [noAdjBlank, Bool.and_eq_true] at h ⊢
      exact ⟨h.1, hrec⟩

theorem noAdj_dropHeadNil (ls : List (List Char)) (h : noAdjBlank ls = true) :
    noAdjBlank (dropHeadNil ls) = true := by
  cases ls with
  | nil => rfl
  | cons a rest =>
    cases a with
    | nil => exact noAdjBlank_tail _ _ h
    | cons x xs => rw [dropHeadNil_cons_ne (x :: xs) rest (by simp)]; exact h

theorem noAdj_lstripHead (ls : List (List Char)) (h : noAdjBlank ls = true) :
    noAdjBlank (lstripHead ls) = true := by
  cases ls with
  | nil => rfl
  | cons l rest =>
    cases rest with
    | nil => rfl
    | cons m ms =>
      simp only [lstripHead, noAdjBlank, Bool.and_eq_true] at h ⊢
      refine ⟨?_, h.2⟩
      rw [lstrip_all_iff]
      exact h.1

theorem mem_lstripHead : ∀ (ls : List (List Char)), ∀ L ∈ lstripHead ls,
    ∃ M ∈ ls, ∀ c ∈ L, c ∈ M := by
  intro ls L hL
  cases ls with
  | nil => simp [lstripHead] at hL
  | cons a rest =>
    simp only [lstripHead] at hL
    rcases List.mem_cons.mp hL with h | h
    · exact ⟨a, by simp, fun c hc => mem_lstrip (h ▸ hc)⟩
    · exact ⟨L, List.mem_cons_of_mem _ h, fun c hc => hc⟩

theorem mem_trimLines (ls : List (List Char)) (L : List Char) (hL : L ∈ trimLines ls) :
    ∃ M ∈ ls, ∀ c ∈ L, c ∈ M := by
  unfold trimLines at hL
  have h1 := mem_dropLastNil _ L hL
  obtain ⟨M, hM, hsub⟩ := mem_lstripHead _ L h1
  exact ⟨M, mem_dropHeadNil ls M hM, hsub⟩

theorem trim_rstripped (ls : List (List Char)) (hr : ∀ L ∈ ls, rstrip L = L) :
    ∀ L ∈ trimLines ls, rstrip L = L := by
  intro L hL
  unfold trimLines at hL
  have h1 := mem_dropLastNil _ L hL
  have hr' : ∀ M ∈ dropHeadNil ls, rstrip M = M := fun M hM =>
    hr M (mem_dropHeadNil ls M hM)
  cases hD : dropHeadNil ls with
  | nil => rw [hD] at h1; simp [lstripHead] at h1
  | cons a rest =>
    rw [hD] at h1
    simp only [lstripHead] at h1
    rcases List.mem_cons.mp h1 with h | h
    · rw [h]
      exact rstrip_lstrip (hr' a (by rw [hD]; simp))
    · exact hr' L (by rw [hD]; exact List.mem_cons_of_mem _ h)

theorem trim_noAdj (ls : List (List Char)) (hadj : noAdjBlank ls = true) :
    noAdjBlank (trimLines ls) = true :=
  noAdj_dropLastNil _ (noAdj_lstripHead _ (noAdj_dropHeadNil _ hadj))

theorem map_rstrip_id : ∀ (ls : List (List Char)), (∀ L ∈ ls, rstrip L = L) →
    ls.map rstrip = ls
  | [], _ => rfl
  | l :: rest, h => by
    rw [List.map_cons, h l (by simp), map_rstrip_id rest (fun L hL => h L (List.mem_cons_of_mem l hL))]

theorem sanitize_def (raw : List Char) (hraw : raw ≠ []) :
    sanitize_text raw =
      strip (joinNl (collapseBlank false
        ((splitOnNl ((removeMd raw).filter keep)).map rstrip))) := by
  simp [sanitize_text, hraw]

theorem sanitize_strip_fix (raw : List Char) :
    strip (sanitize_text raw) = sanitize_text raw := by
  by_cases hraw : raw = []
  · rw [hraw]; rfl
  · rw [sanitize_def raw hraw, strip_idem]

theorem sanitize_chars (raw : List Char) :
    ∀ c ∈ sanitize_text raw, mdKeep c = true ∧ keep c = true := by
  intro c hc
  by_cases hraw : raw = []
  · rw [hraw] at hc; simp [sanitize_text] at hc
  · rw [sanitize_def raw hraw] at hc
    have hc1 := mem_strip hc
    rcases mem_joinNl _ c hc1 with hnl | ⟨L, hL, hcL⟩
    · rw [hnl]; exact ⟨by decide, by decide⟩
    · rcases collapseBlank_mem false _ L hL with hnil | hmem
      · rw [hnil] at hcL; simp at hcL
      · rw [List.mem_map] at hmem
        obtain ⟨M, hM, hML⟩ := hmem
        have hcM : c ∈ M := mem_rstrip (hML ▸ hcL)
        have hcx : c ∈ (removeMd raw).filter keep := mem_splitOnNl _ M hM c hcM
        rw [List.mem_filter] at hcx
        exact ⟨(mem_removeMd hcx.1).2, hcx.2⟩

theorem sanitize_shape (raw : List Char) (hraw : raw ≠ [])
    (ht : sanitize_text raw ≠ []) :
    ∃ ds : List (List Char),
      sanitize_text raw = joinNl ds ∧
      splitOnNl (sanitize_text raw) = ds ∧
      (∀ L ∈ ds, rstrip L = L) ∧
      noAdjBlank ds = true := by
  have hdef := sanitize_def raw hraw
  set cs := collapseBlank false
    ((splitOnNl ((removeMd raw).filter keep)).map rstrip) with hcs
  have cs_r : ∀ L ∈ cs, rstrip L = L := by
    apply collapseBlank_rstripped
    intro L hL
    rw [List.mem_map] at hL
    obtain ⟨M, _, hML⟩ := hL
    rw [← hML]
    exact rstrip_idem M
  have cs_adj : noAdjBlank cs = true := collapseBlank_noAdj false _
  have cs_nl : ∀ L ∈ cs, '\n' ∉ L := by
    intro L hL hmem
    rcases collapseBlank_mem false _ L hL with hnil | hmem2
    · rw [hnil] at hmem; simp at hmem
    · rw [List.mem_map] at hmem2
      obtain ⟨M, hM, hML⟩ := hmem2
      exact noNl_splitOnNl _ M hM (mem_rstrip (hML ▸ hmem))
  refine ⟨trimLines cs, ?_, ?_, trim_rstripped cs cs_r, trim_noAdj cs cs_adj⟩
  · rw [hdef]
    exact strip_joinNl cs cs_r cs_adj
  · have hjoin : sanitize_text raw = joinNl (trimLines cs) := by
      rw [hdef]
      exact strip_joinNl cs cs_r cs_adj
    rw [hjoin]
    apply splitOnNl_joinNl
    · intro hnil
      rw [hnil] at hjoin
      exact ht (by rw [hjoin]; rfl)
    · intro L hL hmem
      obtain ⟨M, hM, hsub⟩ := mem_trimLines cs L hL
      exact cs_nl M hM (hsub '\n' hmem)

/-! ### C1: idempotence of the sanitizer -/

/-- C1: `sanitize_text` is idempotent — sanitizing an already-sanitized
string is a no-op. -/
theorem sanitize_idempotent (raw : List Char) :
    sanitize_text (sanitize_text raw) = sanitize_text raw := by
  by_cases hraw : raw = []
  · rw [hraw]
    rfl
  · by_cases ht : sanitize_text raw = []
    · rw [ht]
      rfl
    · obtain ⟨ds, hjoin, hlines, hrs, hadj⟩ := sanitize_shape raw hraw ht
      have hchars := sanitize_chars raw
      rw [sanitize_def (sanitize_text raw) ht]
      rw [show removeMd (sanitize_text raw) = sanitize_text raw from
        removeMd_id (fun a ha => (hchars a ha).1)]
      rw [show (sanitize_text raw).filter keep = sanitize_text raw from
        List.filter_eq_self.mpr (fun a ha => (hchars a ha).2)]
      rw [hlines, map_rstrip_id ds hrs, (collapseBlank_id ds hrs hadj).1, ← hjoin]
      exact sanitize_strip_fix raw

/-! ### C7: the sanitizer output satisfies SanitizedText -/

theorem contains_eq_false_of_not_mem {c : Char} :
    ∀ (l : List Char), c ∉ l → l.contains c = false := by
  intro l h
  rcases hc : l.contains c with _ | _
  · rfl
  · exact absurd (List.elem_iff.mp hc) h

/-- C7: for every input, the sanitizer output satisfies the SanitizedText
predicate: no markdown-marker substrings, no emoji-range code points, no
adjacent blank lines, and no leading or trailing whitespace. -/
theorem sanitize_sanitized (raw : List Char) :
    sanitizedText (sanitize_text raw) = true := by
  have hchars := sanitize_chars raw
  have hstar : '*' ∉ sanitize_text raw := fun hm => by
    have hh := (hchars _ hm).1
    simp [mdKeep] at hh
  have hhash : '#' ∉ sanitize_text raw := fun hm => by
    have hh := (hchars _ hm).1
    simp [mdKeep] at hh
  have hbt : Char.ofNat 96 ∉ sanitize_text raw := fun hm => by
    have hh := (hchars _ hm).1
    simp [mdKeep] at hh
  have hund : '_' ∉ sanitize_text raw := fun hm => by
    have hh := (hchars _ hm).1
    simp [mdKeep] at hh
  have hnoinfix : ¬ (['*', '*'] <:+: sanitize_text raw) := by
    rintro ⟨s, u, hsu⟩
    exact hstar (by rw [← hsu]; simp)
  have hadjlines : noAdjBlank (splitOnNl (sanitize_text raw)) = true := by
    by_cases hraw : raw = []
    · rw [hraw]; rfl
    · by_cases ht : sanitize_text raw = []
      · rw [ht]; rfl
      · obtain ⟨ds, -, hlines, -, hadj⟩ := sanitize_shape raw hraw ht
        rw [hlines]
        exact hadj
  simp only [sanitizedText, Bool.and_eq_true, Bool.not_eq_true']
  refine ⟨⟨⟨⟨⟨⟨⟨decide_eq_false hnoinfix, contains_eq_false_of_not_mem _ hstar⟩,
    contains_eq_false_of_not_mem _ hhash⟩, contains_eq_false_of_not_mem _ hbt⟩,
    contains_eq_false_of_not_mem _ hund⟩,
    List.all_eq_true.mpr (fun c hc => (hchars c hc).2)⟩, hadjlines⟩, ?_⟩
  rw [sanitize_strip_fix raw]
  exact beq_self_eq_true _

end RealtyAI

namespace RealtyAI

/-! ### C8: splitter completeness machinery -/

theorem titles_no_colon : ∀ t ∈ titles, ':' ∉ t := by decide

theorem titles_ne_nil : ∀ t ∈ titles, t ≠ [] := by decide

theorem titles_no_suffix : ∀ t ∈ titles, ∀ u ∈ titles, t <:+ u → t = u := by decide

theorem findMatchesAux_irrel : ∀ (f₁ f₂ pos : Nat) (l : List Char),
    l.length ≤ f₁ → l.length ≤ f₂ → findMatchesAux f₁ pos l = findMatchesAux f₂ pos l
  | 0, f₂, pos, l, h₁, _ => by
    have hl : l = [] := List.eq_nil_of_length_eq_zero (Nat.le_zero.mp h₁)
    subst hl
    cases f₂ <;> rfl
  | f₁ + 1, f₂, pos, l, h₁, h₂ => by
    cases l with
    | nil => cases f₂ <;> rfl
    | cons c rest =>
      cases f₂ with
      | zero => simp at h₂
      | succ f₂' =>
        simp only [List.length_cons] at h₁ h₂
        cases hm : matchAt (c :: rest) with
        | some t =>
          rw [show findMatchesAux (f₁ + 1) pos (c :: rest) =
            (pos, t) :: findMatchesAux f₁ (pos + t.length + 1) (rest.drop t.length) from by
            simp [findMatchesAux, hm]]
          rw [show findMatchesAux (f₂' + 1) pos (c :: rest) =
            (pos, t) :: findMatchesAux f₂' (pos + t.length + 1) (rest.drop t.length) from by
            simp [findMatchesAux, hm]]
          congr 1
          apply findMatchesAux_irrel
          · rw [List.length_drop]; omega
          · rw [List.length_drop]; omega
        | none =>
          rw [show findMatchesAux (f₁ + 1) pos (c :: rest) =
            findMatchesAux f₁ (pos + 1) rest from by simp [findMatchesAux, hm]]
          rw [show findMatchesAux (f₂' + 1) pos (c :: rest) =
            findMatchesAux f₂' (pos + 1) rest from by simp [findMatchesAux, hm]]
          apply findMatchesAux_irrel <;> omega

theorem findMatches_cons_some (pos : Nat) (c : Char) (rest t : List Char)
    (hm : matchAt (c :: rest) = some t) :
    findMatches pos (c :: rest) =
      (pos, t) :: findMatches (pos + t.length + 1) (rest.drop t.length) := by
  unfold findMatches
  rw [show findMatchesAux (c :: rest).length pos (c :: rest) =
    (pos, t) :: findMatchesAux rest.length (pos + t.length + 1) (rest.drop t.length) from by
    simp [findMatchesAux, hm]]
  congr 1
  apply findMatchesAux_irrel
  · rw [List.length_drop]; omega
  · exact Nat.le_refl _

theorem findMatches_cons_none (pos : Nat) (c : Char) (rest : List Char)
    (hm : matchAt (c :: rest) = none) :
    findMatches pos (c :: rest) = findMatches (pos + 1) rest := by
  unfold findMatches
  rw [show findMatchesAux (c :: rest).length pos (c :: rest) =
    findMatchesAux rest.length (pos + 1) rest from by simp [findMatchesAux, hm]]

theorem anchor_prefix_eq : ∀ (u t₂ rest' : List Char), ':' ∉ u → ':' ∉ t₂ →
    (u ++ [':']) <+: (t₂ ++ ':' :: rest') → u = t₂
  | u, [], rest', hu, _, hp => by
    cases u with
    | nil => rfl
    | cons e u' =>
      have h1 := List.cons_prefix_cons.mp hp
      exact absurd (List.mem_cons.mpr (Or.inl h1.1.symm)) hu
  | u, d :: t₂', rest', hu, ht₂, hp => by
    cases u with
    | nil =>
      have h1 := List.cons_prefix_cons.mp hp
      exact absurd (List.mem_cons.mpr (Or.inl h1.1)) ht₂
    | cons e u' =>
      have h1 := List.cons_prefix_cons.mp hp
      rw [h1.1, anchor_prefix_eq u' t₂' rest' (fun hm => hu (List.mem_cons_of_mem e hm))
        (fun hm => ht₂ (List.mem_cons_of_mem d hm)) h1.2]

theorem gap_prefix_cases : ∀ (g : List Char), g ≠ [] → ∀ (u t₂ rest' : List Char),
    ':' ∉ u → ':' ∉ t₂ →
    (u ++ [':']) <+: (g ++ (t₂ ++ ':' :: rest')) →
    (u ++ [':']) <+: g ∨ ∃ s, s ≠ [] ∧ u = s ++ t₂
  | [], h, _, _, _, _, _, _ => absurd rfl h
  | [c], _, u, t₂, rest', hu, ht₂, hp => by
    cases u with
    | nil =>
      have h1 := List.cons_prefix_cons.mp hp
      left
      rw [List.nil_append]
      exact ⟨[], by rw [List.append_nil, h1.1]⟩
    | cons e u' =>
      have h1 := List.cons_prefix_cons.mp hp
      have h2 := anchor_prefix_eq u' t₂ rest'
        (fun hm => hu (List.mem_cons_of_mem e hm)) ht₂ h1.2
      exact Or.inr ⟨[e], by simp, by rw [h2]; rfl⟩
  | c :: c2 :: g'', _, u, t₂, rest', hu, ht₂, hp => by
    cases u with
    | nil =>
      have h1 := List.cons_prefix_cons.mp hp
      left
      rw [List.nil_append]
      exact ⟨c2 :: g'', by rw [List.cons_append, List.nil_append, h1.1]⟩
    | cons e u' =>
      have h1 := List.cons_prefix_cons.mp hp
      rcases gap_prefix_cases (c2 :: g'') (by simp) u' t₂ rest'
        (fun hm => hu (List.mem_cons_of_mem e hm)) ht₂ h1.2 with hleft | ⟨s', hs'ne, hs'⟩
      · left
        rw [List.cons_append]
        exact List.cons_prefix_cons.mpr ⟨h1.1, hleft⟩
      · exact Or.inr ⟨e :: s', by simp, by rw [hs']; rfl⟩

theorem find?_unique {α : Type} (p : α → Bool) (t : α) :
    ∀ L : List α, t ∈ L → p t = true → (∀ u ∈ L, p u = true → u = t) →
      L.find? p = some t
  | [], ht, _, _ => by simp at ht
  | a :: L', ht, hpt, huniq => by
    by_cases hpa : p a = true
    · rw [List.find?_cons_of_pos _ hpa, huniq a (by simp) hpa]
    · have hta : t ≠ a := fun h => hpa (h ▸ hpt)
      rw [List.find?_cons_of_neg _ (by simpa using hpa)]
      refine find?_unique p t L' ?_ hpt (fun u hu hpu => huniq u (List.mem_cons_of_mem a hu) hpu)
      rcases List.mem_cons.mp ht with h | h
      · exact absurd h hta
      · exact h

theorem matchAt_junction (t b : List Char) (r : List (List Char × List Char))
    (ht : t ∈ titles) :
    matchAt (t ++ ':' :: (b ++ mkText r)) = some t := by
  unfold matchAt
  apply find?_unique _ _ _ ht
  · rw [ List.isPrefixOf_iff_prefix]
    rw [show t ++ ':' :: (b ++ mkText r) = (t ++ [':']) ++ (b ++ mkText r) from by simp]
    exact List.prefix_append _ _
  · intro u hu hpu
    rw [ List.isPrefixOf_iff_prefix] at hpu
    exact anchor_prefix_eq u t _ (titles_no_colon u hu) (titles_no_colon t ht) hpu

theorem matchAt_gap_none (c : Char) (b' : List Char) (r : List (List Char × List Char))
    (hg : ∀ u ∈ titles, ¬ ((u ++ [':']) <+: (c :: b')))
    (hr : ∀ pr ∈ r, pr.1 ∈ titles) :
    matchAt ((c :: b') ++ mkText r) = none := by
  unfold matchAt
  rw [List.find?_eq_none]
  intro u hu hpu
  rw [ List.isPrefixOf_iff_prefix] at hpu
  cases r with
  | nil =>
    rw [show mkText [] = [] from rfl, List.append_nil] at hpu
    exact hg u hu hpu
  | cons pr r' =>
    obtain ⟨t₂, b₂⟩ := pr
    rw [show mkText ((t₂, b₂) :: r') = t₂ ++ ':' :: (b₂ ++ mkText r') from rfl] at hpu
    rcases gap_prefix_cases (c :: b') (by simp) u t₂ (b₂ ++ mkText r')
      (titles_no_colon u hu) (titles_no_colon t₂ (hr (t₂, b₂) (by simp))) hpu with
      hpre | ⟨s, hs, hu'⟩
    · exact hg u hu hpre
    · have hsuf : t₂ <:+ u := ⟨s, hu'.symm⟩
      have heq := titles_no_suffix t₂ (hr (t₂, b₂) (by simp)) u hu hsuf
      have hlen := congrArg List.length hu'
      rw [← heq] at hlen
      simp only [List.length_append] at hlen
      exact hs (List.eq_nil_of_length_eq_zero (by omega))

end RealtyAI

namespace RealtyAI

theorem split_eq_sectionsOf (text : List Char)
    (h : (findMatches 0 text).isEmpty = false) :
    split_sections_for_pdf text = sectionsOf text (findMatches 0 text) := by
  simp [split_sections_for_pdf, h]

theorem findMatches_gap : ∀ (b : List Char) (pos : Nat) (r : List (List Char × List Char)),
    anchorFree b → (∀ pr ∈ r, pr.1 ∈ titles) →
    findMatches pos (b ++ mkText r) = findMatches (pos + b.length) (mkText r)
  | [], pos, r, _, _ => by simp
  | c :: b', pos, r, hb, hr => by
    have hg : ∀ u ∈ titles, ¬ ((u ++ [':']) <+: (c :: b')) :=
      fun u hu hpre => hb u hu hpre.isInfix
    have hnone : matchAt (c :: (b' ++ mkText r)) = none := matchAt_gap_none c b' r hg hr
    have hb' : anchorFree b' := fun u hu hinf => hb u hu (List.infix_cons hinf)
    rw [show (c :: b') ++ mkText r = c :: (b' ++ mkText r) from rfl]
    rw [findMatches_cons_none pos c (b' ++ mkText r) hnone]
    rw [findMatches_gap b' (pos + 1) r hb' hr]
    rw [show pos + 1 + b'.length = pos + (c :: b').length from by
      simp only [List.length_cons]; omega]

theorem findMatches_mkText : ∀ (prs : List (List Char × List Char)) (pos : Nat),
    (∀ pr ∈ prs, pr.1 ∈ titles ∧ anchorFree pr.2) →
    findMatches pos (mkText prs) = anchorsOf pos prs
  | [], _, _ => rfl
  | (t, b) :: r, pos, h => by
    have ht : t ∈ titles := (h (t, b) (by simp)).1
    have hb : anchorFree b := (h (t, b) (by simp)).2
    have hr : ∀ pr ∈ r, pr.1 ∈ titles ∧ anchorFree pr.2 :=
      fun pr hpr => h pr (List.mem_cons_of_mem _ hpr)
    obtain ⟨c, t', ht'⟩ := List.exists_cons_of_ne_nil (titles_ne_nil t ht)
    subst ht'
    have hjun : matchAt (c :: (t' ++ ':' :: (b ++ mkText r))) = some (c :: t') :=
      matchAt_junction (c :: t') b r ht
    rw [show mkText ((c :: t', b) :: r) = c :: (t' ++ ':' :: (b ++ mkText r)) from rfl]
    rw [findMatches_cons_some pos c (t' ++ ':' :: (b ++ mkText r)) (c :: t') hjun]
    rw [show (t' ++ ':' :: (b ++ mkText r)).drop (c :: t').length = b ++ mkText r from by
      rw [show t' ++ ':' :: (b ++ mkText r) = (t' ++ [':']) ++ (b ++ mkText r) from by simp,
          show (c :: t').length = (t' ++ [':']).length from by simp]
      exact List.drop_left _ _]
    rw [findMatches_gap b (pos + (c :: t').length + 1) r hb (fun pr hpr => (hr pr hpr).1)]
    rw [findMatches_mkText r (pos + (c :: t').length + 1 + b.length) hr]
    rfl

theorem sectionsOf_mkText : ∀ (prs : List (List Char × List Char)) (pre : List Char),
    sectionsOf (pre ++ mkText prs) (anchorsOf pre.length prs) =
      prs.map (fun pr => (pr.1, strip pr.2))
  | [], _ => rfl
  | [(t, b)], pre => by
    rw [show anchorsOf pre.length [(t, b)] = [(pre.length, t)] from rfl]
    rw [show sectionsOf (pre ++ mkText [(t, b)]) [(pre.length, t)] =
      [(t, strip ((pre ++ mkText [(t, b)]).drop (pre.length + t.length + 1)))] from rfl]
    rw [show (pre ++ mkText [(t, b)]).drop (pre.length + t.length + 1) = b from by
      rw [show pre ++ mkText [(t, b)] = (pre ++ t ++ [':']) ++ (b ++ []) from by simp [mkText],
          show pre.length + t.length + 1 = (pre ++ t ++ [':']).length from by
            simp only [List.length_append, List.length_cons, List.length_nil]
            try omega]
      rw [List.drop_left]
      simp]
    rfl
  | (t, b) :: (t₂, b₂) :: r, pre => by
    rw [show anchorsOf pre.length ((t, b) :: (t₂, b₂) :: r) =
      (pre.length, t) :: (pre.length + t.length + 1 + b.length, t₂) ::
        anchorsOf (pre.length + t.length + 1 + b.length + t₂.length + 1 + b₂.length) r
      from rfl]
    rw [show sectionsOf (pre ++ mkText ((t, b) :: (t₂, b₂) :: r))
        ((pre.length, t) :: (pre.length + t.length + 1 + b.length, t₂) ::
          anchorsOf (pre.length + t.length + 1 + b.length + t₂.length + 1 + b₂.length) r) =
      (t, strip (((pre ++ mkText ((t, b) :: (t₂, b₂) :: r)).drop (pre.length + t.length + 1)).take
        (pre.length + t.length + 1 + b.length - (pre.length + t.length + 1)))) ::
        sectionsOf (pre ++ mkText ((t, b) :: (t₂, b₂) :: r))
          ((pre.length + t.length + 1 + b.length, t₂) ::
            anchorsOf (pre.length + t.length + 1 + b.length + t₂.length + 1 + b₂.length) r)
      from rfl]
    rw [show pre.length + t.length + 1 + b.length - (pre.length + t.length + 1) = b.length from by
      omega]
    rw [show (pre ++ mkText ((t, b) :: (t₂, b₂) :: r)).drop (pre.length + t.length + 1) =
        b ++ mkText ((t₂, b₂) :: r) from by
      rw [show pre ++ mkText ((t, b) :: (t₂, b₂) :: r) =
          (pre ++ t ++ [':']) ++ (b ++ mkText ((t₂, b₂) :: r)) from by simp [mkText],
          show pre.length + t.length + 1 = (pre ++ t ++ [':']).length from by
            simp only [List.length_append, List.length_cons, List.length_nil]
            try omega]
      exact List.drop_left _ _]
    rw [List.take_left]
    rw [List.map_cons]
    congr 1
    have hIH := sectionsOf_mkText ((t₂, b₂) :: r) (pre ++ t ++ ':' :: b)
    rw [show (pre ++ t ++ ':' :: b).length = pre.length + t.length + 1 + b.length from by
      simp only [List.length_append, List.length_cons]
      omega] at hIH
    rw [show (pre ++ t ++ ':' :: b) ++ mkText ((t₂, b₂) :: r) =
        pre ++ mkText ((t, b) :: (t₂, b₂) :: r) from by simp [mkText]] at hIH
    rw [show anchorsOf (pre.length + t.length + 1 + b.length) ((t₂, b₂) :: r) =
      (pre.length + t.length + 1 + b.length, t₂) ::
        anchorsOf (pre.length + t.length + 1 + b.length + t₂.length + 1 + b₂.length) r
      from rfl] at hIH
    exact hIH

/-- C8: for a report text built from the eight canonical anchors in
canonical order, each followed by a body containing no further anchor
(no canonical title immediately followed by a colon occurs inside a body;
colons not preceded by a title are allowed), the splitter returns exactly
the eight sections in that order, each body being the text strictly
between consecutive anchors, trimmed. -/
theorem splitter_completeness
    (b₁ b₂ b₃ b₄ b₅ b₆ b₇ b₈ : List Char)
    (h₁ : anchorFree b₁) (h₂ : anchorFree b₂) (h₃ : anchorFree b₃) (h₄ : anchorFree b₄)
    (h₅ : anchorFree b₅) (h₆ : anchorFree b₆) (h₇ : anchorFree b₇) (h₈ : anchorFree b₈) :
    split_sections_for_pdf (mkText
      [("Rental Yield".toList, b₁), ("Monthly Cashflow".toList, b₂),
       ("Annual Cashflow".toList, b₃), ("ROI (5-year & 10-year)".toList, b₄),
       ("Cap Rate".toList, b₅), ("Risk Score".toList, b₆),
       ("Market Summary".toList, b₇), ("Final Recommendation".toList, b₈)]) =
      [("Rental Yield".toList, strip b₁), ("Monthly Cashflow".toList, strip b₂),
       ("Annual Cashflow".toList, strip b₃), ("ROI (5-year & 10-year)".toList, strip b₄),
       ("Cap Rate".toList, strip b₅), ("Risk Score".toList, strip b₆),
       ("Market Summary".toList, strip b₇), ("Final Recommendation".toList, strip b₈)] := by
  have hprs : ∀ pr ∈
      [("Rental Yield".toList, b₁), ("Monthly Cashflow".toList, b₂),
       ("Annual Cashflow".toList, b₃), ("ROI (5-year & 10-year)".toList, b₄),
       ("Cap Rate".toList, b₅), ("Risk Score".toList, b₆),
       ("Market Summary".toList, b₇), ("Final Recommendation".toList, b₈)],
      pr.1 ∈ titles ∧ anchorFree pr.2 := by
    intro pr hpr
    simp only [List.mem_cons, List.not_mem_nil, or_false] at hpr
    rcases hpr with h | h | h | h | h | h | h | h <;> subst h
    · exact ⟨(by decide : "Rental Yield".toList ∈ titles), h₁⟩
    · exact ⟨(by decide : "Monthly Cashflow".toList ∈ titles), h₂⟩
    · exact ⟨(by decide : "Annual Cashflow".toList ∈ titles), h₃⟩
    · exact ⟨(by decide : "ROI (5-year & 10-year)".toList ∈ titles), h₄⟩
    · exact ⟨(by decide : "Cap Rate".toList ∈ titles), h₅⟩
    · exact ⟨(by decide : "Risk Score".toList ∈ titles), h₆⟩
    · exact ⟨(by decide : "Market Summary".toList ∈ titles), h₇⟩
    · exact ⟨(by decide : "Final Recommendation".toList ∈ titles), h₈⟩
  have hfm := findMatches_mkText
    [("Rental Yield".toList, b₁), ("Monthly Cashflow".toList, b₂),
     ("Annual Cashflow".toList, b₃), ("ROI (5-year & 10-year)".toList, b₄),
     ("Cap Rate".toList, b₅), ("Risk Score".toList, b₆),
     ("Market Summary".toList, b₇), ("Final Recommendation".toList, b₈)] 0 hprs
  have hne : (findMatches 0 (mkText
      [("Rental Yield".toList, b₁), ("Monthly Cashflow".toList, b₂),
       ("Annual Cashflow".toList, b₃), ("ROI (5-year & 10-year)".toList, b₄),
       ("Cap Rate".toList, b₅), ("Risk Score".toList, b₆),
       ("Market Summary".toList, b₇), ("Final Recommendation".toList, b₈)])).isEmpty = false := by
    rw [hfm]
    rfl
  rw [split_eq_sectionsOf _ hne, hfm]
  have hsec := sectionsOf_mkText
    [("Rental Yield".toList, b₁), ("Monthly Cashflow".toList, b₂),
     ("Annual Cashflow".toList, b₃), ("ROI (5-year & 10-year)".toList, b₄),
     ("Cap Rate".toList, b₅), ("Risk Score".toList, b₆),
     ("Market Summary".toList, b₇), ("Final Recommendation".toList, b₈)] []
  simpa using hsec

end RealtyAI

namespace RealtyAI

theorem splitter_completeness_witness :
    (anchorFree ("8.5%".toList) ∧ anchorFree ("$1,200".toList) ∧
      anchorFree ("$14,400".toList) ∧ anchorFree ("ratio 2:1 and 45%".toList) ∧
      anchorFree ("7.2%".toList) ∧ anchorFree ("55".toList) ∧
      anchorFree ("Austin market is strong".toList) ∧ anchorFree ("Buy".toList)) ∧
    split_sections_for_pdf (mkText
      [("Rental Yield".toList, "8.5%".toList),
       ("Monthly Cashflow".toList, "$1,200".toList),
       ("Annual Cashflow".toList, "$14,400".toList),
       ("ROI (5-year & 10-year)".toList, "ratio 2:1 and 45%".toList),
       ("Cap Rate".toList, "7.2%".toList),
       ("Risk Score".toList, "55".toList),
       ("Market Summary".toList, "Austin market is strong".toList),
       ("Final Recommendation".toList, "Buy".toList)]) =
      [("Rental Yield".toList, strip "8.5%".toList),
       ("Monthly Cashflow".toList, strip "$1,200".toList),
       ("Annual Cashflow".toList, strip "$14,400".toList),
       ("ROI (5-year & 10-year)".toList, strip "ratio 2:1 and 45%".toList),
       ("Cap Rate".toList, strip "7.2%".toList),
       ("Risk Score".toList, strip "55".toList),
       ("Market Summary".toList, strip "Austin market is strong".toList),
       ("Final Recommendation".toList, strip "Buy".toList)] :=
  ⟨⟨by decide, by decide, by decide, by decide, by decide, by decide, by decide, by decide⟩,
   splitter_completeness _ _ _ _ _ _ _ _ (by decide) (by decide) (by decide) (by decide)
     (by decide) (by decide) (by decide) (by decide)⟩

end RealtyAI
